import Mathlib

/-!
Verification development for the Python node editor (src/main.py, src/node.py,
src/connection.py, src/code_editor.py).

The development shallowly embeds the parts of the program that carry the
behavioural claims:

* the graph data model: ports, connections, per-port connection collections
  (`PortItem.add_connection` / `PortItem.remove_connection` in src/node.py);
* the per-node evaluator `NodeItem.execute_code` (src/node.py), with the code
  string abstracted to its observable behaviour: running `exec` either raises,
  or terminates without defining `process`, or yields a `process` callable,
  itself a function from the positional-argument list to a result or an
  exception message;
* the execution pass `MainWindow.execute_graph` (src/main.py): reset of all
  results, then the iterative fixed-point scheduling loop;
* the UI mutation handlers `NodeCanvas.mouseReleaseEvent` (connection
  completion/validation) and the right-click node-deletion branch of
  `NodeCanvas.mousePressEvent` (src/main.py);
* the serialization codec `MainWindow.serialize_graph` /
  `MainWindow.deserialize_graph` (src/main.py) together with
  `NodeItem.to_dict` / `from_dict` and `ConnectionItem.to_dict` / `from_dict`.

Python object identity is modelled with explicit numeric identities (`nid` for
nodes, `cid` for connections); scene coordinates are modelled as integers (the
codec copies them verbatim, so their numeric type is irrelevant to the claims).
-/

namespace NodeEditor

/-- Reference identifying one `PortItem`: the id of the owning node, the
direction flag `is_output`, and the position of the port inside the owning
node's list of input (respectively output) ports.  Every base `NodeItem` is
constructed with exactly one input and one output port. -/
structure PortRef where
  node : Nat
  is_output : Bool
  index : Nat
deriving DecidableEq

/-- A `ConnectionItem` whose two end ports are both set.  `cid` models Python
object identity of the connection item.  A pending (drag-in-progress)
connection is never registered in any port collection and never persisted, so
only complete connections are modelled. -/
structure Connection where
  cid : Nat
  start_port : PortRef
  end_port : PortRef
deriving DecidableEq

/-- The port at the other end of connection `c` as seen from port `p`:
`connection.start_port if connection.start_port != port else
connection.end_port`, exactly the branch used both by
`NodeItem.execute_code` and by the node-deletion handler. -/
def Connection.otherPort (c : Connection) (p : PortRef) : PortRef :=
  if c.start_port ≠ p then c.start_port else c.end_port

/-- Id of the node on the other end of connection `c` as seen from port `p`
(`source_node` in `NodeItem.execute_code` and `MainWindow.execute_graph`). -/
def Connection.srcNode (c : Connection) (p : PortRef) : Nat :=
  (c.otherPort p).node

/-- Observable behaviour of running `exec` on a node's code string
(`NodeItem.execute_code`): the `exec` call raises, or it terminates without
putting a callable `process` into the local namespace, or it defines
`process`.  A defined `process` maps the positional-argument list it is called
with to either a returned value or a raised exception's message.  `V` is the
type of non-`None` Python values flowing through the graph; a returned Python
value is an `Option V`, where `none` models `None`. -/
inductive Code (V : Type) where
  | raises (msg : String)
  | noProcess
  | defines (f : List (Option V) → Except String (Option V))

/-- A `NodeItem` as seen by the execution engine: identity, title, the
connection collections of its input ports (in port order), and its code.
Output-port collections are never read during execution. -/
structure Node (V : Type) where
  nid : Nat
  title : String
  inputs : List (List Connection)
  code : Code V

/-- Reference to the `i`-th input port of node `nid`. -/
def inputRef (nid i : Nat) : PortRef := ⟨nid, false, i⟩

/-- Ids of the nodes on the other end of every connection touching the input
ports of node `nid`, whose input collections (from port `i` onwards) are
`inputs`; discovery order of `execute_graph`/`execute_code`. -/
def upstreamsFrom (nid : Nat) : Nat → List (List Connection) → List Nat
  | _, [] => []
  | i, cs :: rest =>
    cs.map (fun c => c.srcNode (inputRef nid i)) ++ upstreamsFrom nid (i + 1) rest

/-- All upstream node ids of a node, in discovery order. -/
def Node.upstreamList {V : Type} (n : Node V) : List Nat :=
  upstreamsFrom n.nid 0 n.inputs

/-- The `can_execute` scan of `MainWindow.execute_graph`, restricted to the
input collections from port `i` onwards: every connection's source node must
already have been executed. -/
def canExecFrom (executed : List Nat) (nid : Nat) : Nat → List (List Connection) → Bool
  | _, [] => true
  | i, cs :: rest =>
    cs.all (fun c => decide (c.srcNode (inputRef nid i) ∈ executed)) &&
      canExecFrom executed nid (i + 1) rest

/-- `can_execute` check of `MainWindow.execute_graph` for one node. -/
def can_execute {V : Type} (executed : List Nat) (n : Node V) : Bool :=
  canExecFrom executed n.nid 0 n.inputs

/-- Input-value collection of `NodeItem.execute_code` restricted to the input
collections from port `i` onwards: for every connection of every input port,
the source node's result is appended iff it `is not None`. -/
def gatherFrom {V : Type} (results : Nat → Option V) (nid : Nat) :
    Nat → List (List Connection) → List V
  | _, [] => []
  | i, cs :: rest =>
    cs.filterMap (fun c => results (c.srcNode (inputRef nid i))) ++
      gatherFrom results nid (i + 1) rest

/-- The `inputs` list collected by `NodeItem.execute_code` before invoking
`process`. -/
def gather_inputs {V : Type} (results : Nat → Option V) (n : Node V) : List V :=
  gatherFrom results n.nid 0 n.inputs

/-- The positional arguments `process` is invoked with:
`process(*inputs) if inputs else process(None)`. -/
def process_args {V : Type} (inputs : List V) : List (Option V) :=
  if inputs.isEmpty then [none] else inputs.map some

/-- What `NodeItem.execute_code` reports on the console: success, the
`"No 'process' function defined"` message (carrying the node's title), or the
caught-exception message (carrying the node's title and the exception text). -/
inductive Report where
  | success
  | missingProcess (title : String)
  | failure (title msg : String)
deriving DecidableEq

/-- Invocation of the `process` callable inside the `try` of
`NodeItem.execute_code`: on a normal return the returned value is stored as
the node's result; on an exception the result field keeps its prior value and
the error (node title plus message) is printed. -/
def call_process {V : Type} (f : List (Option V) → Except String (Option V))
    (args : List (Option V)) (prior : Option V) (title : String) : Option V × Report :=
  match f args with
  | Except.ok v => (v, Report.success)
  | Except.error msg => (prior, Report.failure title msg)

/-- `NodeItem.execute_code`: run `exec` on the code (any exception is caught
and reported with the node's title, leaving the result untouched); if no
`process` callable was defined, report that (result untouched); otherwise
gather the upstream input values, build the positional arguments and invoke
`process`.  The first component is the node's `result` field after the call
(it was `results n.nid` before the call). -/
def execute_code {V : Type} (results : Nat → Option V) (n : Node V) : Option V × Report :=
  match n.code with
  | Code.raises msg => (results n.nid, Report.failure n.title msg)
  | Code.noProcess => (results n.nid, Report.missingProcess n.title)
  | Code.defines f =>
    call_process f (process_args (gather_inputs results n)) (results n.nid) n.title

/-- State of one execution pass: the `executed` set of `MainWindow.
execute_graph` in insertion order, and every node's `result` field. -/
structure PassState (V : Type) where
  executed : List Nat
  results : Nat → Option V

/-- Body of the inner `for node in self.nodes` loop of
`MainWindow.execute_graph` for one node: skip if already executed; if
`can_execute`, run `NodeItem.execute_code` (which catches every exception
itself, so the surrounding `try` always reaches `executed.add(node)`) and
record the node as executed. -/
def passStep {V : Type} (s : PassState V) (n : Node V) : PassState V :=
  if n.nid ∈ s.executed then s
  else if can_execute s.executed n then
    { executed := s.executed ++ [n.nid],
      results := fun m => if m = n.nid then (execute_code s.results n).1 else s.results m }
  else s

/-- One full scan over `self.nodes` (one iteration of the `while` loop). -/
def scanNodes {V : Type} (g : List (Node V)) (s : PassState V) : PassState V :=
  g.foldl passStep s

/-- The `while progress and len(executed) < len(self.nodes)` loop.  A scan
makes progress iff it strictly grows `executed`, so the loop performs at most
`g.length` progressing scans; the fuel `g.length + 1` used by
`execute_graph` below therefore never runs out before the loop's own exit
condition fires. -/
def execLoop {V : Type} (g : List (Node V)) : Nat → PassState V → PassState V
  | 0, s => s
  | fuel + 1, s =>
    if s.executed.length < g.length then
      let s2 := scanNodes g s
      if s.executed.length < s2.executed.length then execLoop g fuel s2 else s2
    else s

/-- State at the start of a pass: `executed` empty and every node's result
reset to `None` (the `for node in self.nodes: node.result = None` loop). -/
def initState (V : Type) : PassState V := { executed := [], results := fun _ => none }

/-- `MainWindow.execute_graph`: reset results, then run the scheduling loop
to completion. -/
def execute_graph {V : Type} (g : List (Node V)) : PassState V :=
  execLoop g (g.length + 1) (initState V)

/-- The final console summary `"{len(executed)}/{len(self.nodes)} nodes
executed"`. -/
def pass_summary {V : Type} (g : List (Node V)) : Nat × Nat :=
  ((execute_graph g).executed.length, g.length)

/-- Node ids of a graph. -/
def nids {V : Type} (g : List (Node V)) : List Nat := g.map Node.nid

/-- `u` is upstream of `m` in graph `g`: some connection touching an input
port of a node with id `m` has the node `u` on its other end. -/
def upstream {V : Type} (g : List (Node V)) (u m : Nat) : Prop :=
  ∃ n ∈ g, n.nid = m ∧ u ∈ n.upstreamList

/-- Every upstream reference points at a node of the graph (connections do
not dangle). -/
def Closed {V : Type} (g : List (Node V)) : Prop :=
  ∀ u m, upstream g u m → u ∈ nids g

/-- The connection graph has no dependency cycle. -/
def Acyclic {V : Type} (g : List (Node V)) : Prop :=
  ∀ m, ¬ Relation.TransGen (upstream g) m m

/-- Node `m` is transitively blocked by a dependency cycle: some node lying
on a cycle reaches `m` along the upstream relation (possibly `m` itself). -/
def Blocked {V : Type} (g : List (Node V)) (m : Nat) : Prop :=
  ∃ c, Relation.TransGen (upstream g) c c ∧ Relation.ReflTransGen (upstream g) c m

/-- Execution-order soundness of an executed list: whenever a node was
executed, all of its upstream nodes had already been executed before it. -/
def InOrder {V : Type} (g : List (Node V)) (ex : List Nat) : Prop :=
  ∀ i, (h : i < ex.length) → ∀ u, upstream g u ex[i] → u ∈ ex.take i

/-- Invariant of the pass state maintained by the scheduling loop. -/
def PassInv {V : Type} (g : List (Node V)) (s : PassState V) : Prop :=
  s.executed.Nodup ∧ (∀ m ∈ s.executed, m ∈ nids g) ∧ InOrder g s.executed

/-- The node's code fails however it is invoked: `exec` raises, or no
`process` is defined, or every invocation of `process` raises. -/
def FailsAlways {V : Type} : Code V → Prop
  | Code.raises _ => True
  | Code.noProcess => True
  | Code.defines f => ∀ args, ∃ msg, f args = Except.error msg

/- ----------------------------------------------------------------------
UI graph-mutation model: port collections, connection completion
(`NodeCanvas.mouseReleaseEvent`) and node deletion (right-click branch of
`NodeCanvas.mousePressEvent`).
---------------------------------------------------------------------- -/

/-- `PortItem.add_connection`: append unless already present. -/
def add_connection (l : List Connection) (c : Connection) : List Connection :=
  if c ∈ l then l else l ++ [c]

/-- `PortItem.remove_connection`: remove if present. -/
def remove_connection (l : List Connection) (c : Connection) : List Connection :=
  if c ∈ l then l.erase c else l

/-- Live UI graph state: the node ids held in `MainWindow.nodes`, the
connection items present in the scene, and every port's `connections`
collection. -/
structure UIState where
  nodes : List Nat
  sceneConns : List Connection
  portConns : PortRef → List Connection

/-- Update a single port's collection. -/
def updatePort (pc : PortRef → List Connection) (p : PortRef)
    (f : List Connection → List Connection) : PortRef → List Connection :=
  fun q => if q = p then f (pc p) else pc q

/-- The left-button branch of `NodeCanvas.mouseReleaseEvent` while a drag
from `startP` is pending and the release happens over port `itemP`: if the
release port differs from the start port and the two directions differ, the
pending connection (identity `cid`) gets its end port set, stays in the
scene, and is registered with both ports; otherwise the pending connection is
removed from the scene again and, since it was never registered with any
port, the whole state is exactly as before the drag started. -/
def mouseReleaseEvent (st : UIState) (startP itemP : PortRef) (cid : Nat) : UIState :=
  if itemP ≠ startP then
    if startP.is_output ≠ itemP.is_output then
      let c : Connection := ⟨cid, startP, itemP⟩
      { st with
        sceneConns := st.sceneConns ++ [c],
        portConns :=
          updatePort (updatePort st.portConns startP (fun l => add_connection l c)) itemP
            (fun l => add_connection l c) }
    else st
  else st

/-- One iteration of the connection-cleanup loop of the node-deletion
handler, processing connection `c` found in port `p`'s collection: remove
`c` from the collection of the port on its other end and remove it from the
scene. -/
def removeConnStep (st : UIState) (p : PortRef) (c : Connection) : UIState :=
  { st with
    portConns := updatePort st.portConns (c.otherPort p) (fun l => remove_connection l c),
    sceneConns := st.sceneConns.erase c }

/-- Process every connection of port `p` (the handler iterates over the
snapshot `list(port.connections)`; the deleted node's own collection is never
shrunk, the node itself disappears instead). -/
def deletePortConns (st : UIState) (p : PortRef) : UIState :=
  (st.portConns p).foldl (fun s c => removeConnStep s p c) st

/-- The ports of a base node, in the `item.inputs + item.outputs` iteration
order of the deletion handler: one input port, then one output port. -/
def nodePorts (nid : Nat) : List PortRef := [⟨nid, false, 0⟩, ⟨nid, true, 0⟩]

/-- Right-click deletion of a node (`NodeCanvas.mousePressEvent`): the node
leaves the scene, every connection touching one of its ports is removed from
the peer port's collection and from the scene, and the node leaves
`MainWindow.nodes`. -/
def deleteNodeEvent (st : UIState) (nid : Nat) : UIState :=
  let st1 := (nodePorts nid).foldl deletePortConns st
  { st1 with nodes := st1.nodes.erase nid }

/-- Connection `c` touches node `nid`. -/
def Touches (c : Connection) (nid : Nat) : Prop :=
  c.start_port.node = nid ∨ c.end_port.node = nid

/-- Well-formedness of a live UI graph state: connection collections contain
a connection only at its own end ports, registration is symmetric, every
registered connection's end ports are real ports (`index` 0, ports exist on
every node), scene connections are registered, and collections and scene are
duplicate-free. -/
structure WFUI (st : UIState) : Prop where
  reg_end : ∀ p c, c ∈ st.portConns p → p = c.start_port ∨ p = c.end_port
  reg_sym_start : ∀ p c, c ∈ st.portConns p → c ∈ st.portConns c.start_port
  reg_sym_end : ∀ p c, c ∈ st.portConns p → c ∈ st.portConns c.end_port
  ports_valid : ∀ p c, c ∈ st.portConns p → c.start_port.index = 0 ∧ c.end_port.index = 0
  scene_reg : ∀ c, c ∈ st.sceneConns → c ∈ st.portConns c.start_port
  conns_nodup : ∀ p, (st.portConns p).Nodup
  scene_nodup : st.sceneConns.Nodup

/-- Duplicate-freeness of all connection collections and of the scene. -/
def UINodups (st : UIState) : Prop :=
  (∀ q, (st.portConns q).Nodup) ∧ st.sceneConns.Nodup

/-- An operation on one port's connection collection. -/
inductive PortOp where
  | add (c : Connection)
  | rem (c : Connection)

/-- Apply one operation. -/
def applyOp (l : List Connection) : PortOp → List Connection
  | PortOp.add c => add_connection l c
  | PortOp.rem c => remove_connection l c

/-- A port's collection after an arbitrary operation sequence, starting from
the empty collection a fresh `PortItem` is created with. -/
def applyOps (ops : List PortOp) : List Connection :=
  ops.foldl applyOp []

/- ----------------------------------------------------------------------
Serialization codec model (`MainWindow.serialize_graph` /
`MainWindow.deserialize_graph`, `NodeItem.to_dict` / `from_dict`,
`ConnectionItem.to_dict` / `from_dict`).
---------------------------------------------------------------------- -/

/-- A live node as the codec sees it: identity, title, code string, scene
position and kind (`ViewerNodeItem` or plain `NodeItem`).  Every node has
exactly one input and one output port. -/
structure NodeRec where
  nid : Nat
  title : String
  code : String
  pos_x : Int
  pos_y : Int
  is_viewer : Bool
deriving DecidableEq

/-- The dictionary produced by `NodeItem.to_dict` (plus the `node_type`
marker added by `ViewerNodeItem.to_dict`); the saved port counts are never
read back by `from_dict`. -/
structure SNodeRec where
  id : Nat
  title : String
  pos_x : Int
  pos_y : Int
  code : String
  is_viewer : Bool
deriving DecidableEq

/-- The dictionary produced by `ConnectionItem.to_dict` for a complete
connection.  `start_port_index` is `outputs.index(port)` respectively
`inputs.index(port)`, which in this model is the `index` field of the port
reference. -/
structure SConnRec where
  start_node_id : Nat
  start_port_index : Nat
  start_port_is_output : Bool
  end_node_id : Nat
  end_port_index : Nat
  end_port_is_output : Bool
deriving DecidableEq

/-- Graph state as the codec sees it.  Port collections are an association
list keyed by port reference (each port object owns one collection). -/
structure SGState where
  nodes : List NodeRec
  sceneConns : List Connection
  portAssoc : List (PortRef × List Connection)

/-- Collection of port `p` (empty for an unknown port). -/
def getConns (st : SGState) (p : PortRef) : List Connection :=
  (Option.map Prod.snd (st.portAssoc.find? (fun e => decide (e.1 = p)))).getD []

/-- `NodeItem.to_dict` / `ViewerNodeItem.to_dict`. -/
def node_to_dict (n : NodeRec) : SNodeRec :=
  ⟨n.nid, n.title, n.pos_x, n.pos_y, n.code, n.is_viewer⟩

/-- `ConnectionItem.to_dict` on a complete connection. -/
def conn_to_dict (c : Connection) : SConnRec :=
  ⟨c.start_port.node, c.start_port.index, c.start_port.is_output,
    c.end_port.node, c.end_port.index, c.end_port.is_output⟩

/-- Ports of a node in the `node.inputs + node.outputs` iteration order of
`MainWindow.serialize_graph`. -/
def portsOfRec (n : NodeRec) : List PortRef :=
  [⟨n.nid, false, 0⟩, ⟨n.nid, true, 0⟩]

/-- The connection items emitted by `MainWindow.serialize_graph`: for every
node, for every port, every connection of that port whose `start_port` is
this port (each complete connection is serialized once, from its start
port; `to_dict` returns `None` only for incomplete connections, which are
not modelled since they are never registered in a collection). -/
def serialize_conn_items (st : SGState) : List Connection :=
  (st.nodes.map (fun n =>
    ((portsOfRec n).map (fun p =>
      (getConns st p).filter (fun c => decide (c.start_port = p)))).flatten)).flatten

/-- `MainWindow.serialize_graph`. -/
def serialize_graph (st : SGState) : List SNodeRec × List SConnRec :=
  (st.nodes.map node_to_dict, (serialize_conn_items st).map conn_to_dict)

/-- The nodes recreated by `MainWindow.deserialize_graph` from the saved
records, in record order.  `from_dict` constructs fresh node objects; the
fresh identities are modelled as consecutive numbers `k, k+1, ...` (the
claims allow identities to differ from the saved ones). -/
def deserializedNodesFrom : Nat → List SNodeRec → List NodeRec
  | _, [] => []
  | k, r :: rest => ⟨k, r.title, r.code, r.pos_x, r.pos_y, r.is_viewer⟩ ::
      deserializedNodesFrom (k + 1) rest

/-- Lookup in the `nodes_dict` built by `deserialize_graph` (old saved id to
the position of the recreated node).  The Python dict is filled in record
order, so a duplicated id would be overwritten by the later record: the
lookup returns the last match. -/
def nodes_dict_find : List SNodeRec → Nat → Nat → Option Nat
  | [], _, _ => none
  | r :: rest, x, k =>
    match nodes_dict_find rest x (k + 1) with
    | some j => some j
    | none => if r.id = x then some k else none

/-- `ConnectionItem.from_dict` resolved against the recreated nodes: `None`
when either node id is unknown (the connection is silently dropped).  An
out-of-range port index makes the Python code raise, aborting the whole
load; every modelled node has exactly one input and one output port, so the
guard only documents that the branch is unreachable for codec output. -/
def conn_from_dict (ns : List SNodeRec) (r : SConnRec) : Option (PortRef × PortRef) :=
  match nodes_dict_find ns r.start_node_id 0, nodes_dict_find ns r.end_node_id 0 with
  | some i, some j =>
    if r.start_port_index < 1 ∧ r.end_port_index < 1 then
      some (⟨i, r.start_port_is_output, r.start_port_index⟩,
        ⟨j, r.end_port_is_output, r.end_port_index⟩)
    else none
  | _, _ => none

/-- Register a recreated connection with a port's collection. -/
def registerConn (pc : List (PortRef × List Connection)) (p : PortRef) (c : Connection) :
    List (PortRef × List Connection) :=
  pc.map (fun e => if e.1 = p then (e.1, add_connection e.2 c) else e)

/-- The connection-recreation loop of `deserialize_graph`: each record that
resolves produces a fresh connection item (identity modelled by the record's
position `k`), added to the scene and registered with both ports. -/
def deserializeConnsFrom (ns : List SNodeRec) : Nat → List SConnRec → SGState → SGState
  | _, [], st => st
  | k, r :: rest, st =>
    match conn_from_dict ns r with
    | some pr =>
      deserializeConnsFrom ns (k + 1) rest
        { st with
          sceneConns := st.sceneConns ++ [⟨k, pr.1, pr.2⟩],
          portAssoc := registerConn (registerConn st.portAssoc pr.1 ⟨k, pr.1, pr.2⟩) pr.2
            ⟨k, pr.1, pr.2⟩ }
    | none => deserializeConnsFrom ns (k + 1) rest st

/-- `MainWindow.deserialize_graph`: clear the graph, recreate the nodes (in
record order, with fresh identities and empty port collections), then
recreate the connections. -/
def deserialize_graph (data : List SNodeRec × List SConnRec) : SGState :=
  let newNodes := deserializedNodesFrom 0 data.1
  deserializeConnsFrom data.1 0 data.2
    { nodes := newNodes,
      sceneConns := [],
      portAssoc := ((newNodes.map portsOfRec).flatten).map (fun p => (p, [])) }

/-- Position of the first node with id `x`, counting from `k`. -/
def nodeIndexFrom : List NodeRec → Nat → Nat → Option Nat
  | [], _, _ => none
  | n :: rest, x, k => if n.nid = x then some k else nodeIndexFrom rest x (k + 1)

/-- Identity-independent topology of a connection in a state: for each end,
the position of its node in the node list together with the port direction
and port index. -/
def topoOf (st : SGState) (c : Connection) : (Option Nat × Bool × Nat) × (Option Nat × Bool × Nat) :=
  ((nodeIndexFrom st.nodes c.start_port.node 0, c.start_port.is_output, c.start_port.index),
    (nodeIndexFrom st.nodes c.end_port.node 0, c.end_port.is_output, c.end_port.index))

/-- Well-formedness of a live graph state for the codec: node ids are
distinct, the scene has no duplicate connection items, collections have no
duplicates, collections hold a connection only at its end ports and only if
it is in the scene, and every scene connection has real end ports (index 0,
nodes of the graph) and is registered at its start port. -/
def SWF (st : SGState) : Prop :=
  (st.nodes.map NodeRec.nid).Nodup ∧
  st.sceneConns.Nodup ∧
  (∀ e ∈ st.portAssoc, e.2.Nodup) ∧
  (∀ e ∈ st.portAssoc, ∀ c ∈ e.2, (e.1 = c.start_port ∨ e.1 = c.end_port) ∧ c ∈ st.sceneConns) ∧
  (∀ c ∈ st.sceneConns,
    c.start_port.index = 0 ∧ c.end_port.index = 0 ∧
    c.start_port.node ∈ st.nodes.map NodeRec.nid ∧
    c.end_port.node ∈ st.nodes.map NodeRec.nid ∧
    c ∈ getConns st c.start_port)

/- ----------------------------------------------------------------------
Concrete instances used by witnesses and counterexamples.
---------------------------------------------------------------------- -/

/-- Connection from the sample source node's output to the sample doubler
node's input (the two nodes created at startup). -/
def chainConn : Connection := ⟨0, ⟨0, true, 0⟩, ⟨1, false, 0⟩⟩

/-- The two-node chain graph: a source producing 42 and a consumer. -/
def exG1 : List (Node Nat) :=
  [ ⟨0, "Node 1", [[]], Code.defines (fun _ => Except.ok (some 42))⟩,
    ⟨1, "Node 2", [[chainConn]], Code.defines (fun args => Except.ok (some args.length))⟩ ]

/-- Connection from node 0's output to node 1's input. -/
def cycConn1 : Connection := ⟨0, ⟨0, true, 0⟩, ⟨1, false, 0⟩⟩

/-- Connection from node 1's output back to node 0's input. -/
def cycConn2 : Connection := ⟨1, ⟨1, true, 0⟩, ⟨0, false, 0⟩⟩

/-- A graph with a two-node cycle plus one free node. -/
def exG2 : List (Node Nat) :=
  [ ⟨0, "A", [[cycConn2]], Code.defines (fun _ => Except.ok (some 1))⟩,
    ⟨1, "B", [[cycConn1]], Code.defines (fun _ => Except.ok (some 2))⟩,
    ⟨2, "C", [[]], Code.defines (fun _ => Except.ok (some 3))⟩ ]

/-- A node whose `process` raises on every call. -/
def cg4Node : Node Nat := ⟨0, "Fail", [[]], Code.defines (fun _ => Except.error "boom")⟩

/-- A single-node graph whose only node always fails. -/
def cg4 : List (Node Nat) := [cg4Node]

/-- Connection from the failing source (node 0) to the sink (node 2). -/
def g8ConnA : Connection := ⟨0, ⟨0, true, 0⟩, ⟨2, false, 0⟩⟩

/-- Connection from the good source (node 1) to the sink (node 2). -/
def g8ConnB : Connection := ⟨1, ⟨1, true, 0⟩, ⟨2, false, 0⟩⟩

/-- A `process` that reports how many positional arguments it received. -/
def argCount : List (Option Nat) → Except String (Option Nat) :=
  fun args => Except.ok (some args.length)

/-- Sink node with two inbound connections on its single input port. -/
def g8Sink : Node Nat := ⟨2, "Sink", [[g8ConnA, g8ConnB]], Code.defines argCount⟩

/-- Graph with one failing and one succeeding upstream of a common sink. -/
def exG8 : List (Node Nat) :=
  [ ⟨0, "FailSrc", [[]], Code.defines (fun _ => Except.error "boom")⟩,
    ⟨1, "GoodSrc", [[]], Code.defines (fun _ => Except.ok (some 5))⟩,
    g8Sink ]

/-- Result assignment where only node 1 has produced a value. -/
def g8Results : Nat → Option Nat := fun m => if m = 1 then some 5 else none

/-- A node whose code string raises on `exec`. -/
def nRaise : Node Nat := ⟨0, "T", [[]], Code.raises "boom"⟩

/-- Connection from node 9's output to node 5's input. -/
def c5Conn : Connection := ⟨3, ⟨9, true, 0⟩, ⟨5, false, 0⟩⟩

/-- Node with one inbound connection, running `argCount` as its process. -/
def c5Node : Node Nat := ⟨5, "W", [[c5Conn]], Code.defines argCount⟩

/-- Result assignment where node 9 has produced the value 7. -/
def c5Results : Nat → Option Nat := fun m => if m = 9 then some 7 else none

/-- Output port of node 0. -/
def pOut0 : PortRef := ⟨0, true, 0⟩

/-- Input port of node 0 — the same node as `pOut0`. -/
def pIn0 : PortRef := ⟨0, false, 0⟩

/-- Input port of node 1. -/
def pIn1 : PortRef := ⟨1, false, 0⟩

/-- UI state with a single isolated node and no connections. -/
def st6 : UIState := ⟨[0], [], fun _ => []⟩

/-- Connection between node 0's output and node 1's input, for the deletion
witness. -/
def c9Conn : Connection := ⟨0, ⟨0, true, 0⟩, ⟨1, false, 0⟩⟩

/-- UI state with two nodes joined by `c9Conn`, registered symmetrically. -/
def st9 : UIState :=
  ⟨[0, 1], [c9Conn],
    fun p => if p = ⟨0, true, 0⟩ ∨ p = ⟨1, false, 0⟩ then [c9Conn] else []⟩

/-- Connections used by the collection-operation witness. -/
def opConnA : Connection := ⟨0, ⟨0, true, 0⟩, ⟨1, false, 0⟩⟩

/-- A second connection between the same ports (distinct identity). -/
def opConnB : Connection := ⟨1, ⟨0, true, 0⟩, ⟨1, false, 0⟩⟩

/-- An operation sequence exercising duplicate adds and an absent removal. -/
def opSeq : List PortOp :=
  [PortOp.add opConnA, PortOp.add opConnB, PortOp.add opConnA,
    PortOp.rem opConnB, PortOp.rem opConnB]

/-- Codec witness state: two nodes joined by one connection. -/
def st7 : SGState :=
  ⟨[⟨0, "Node 1", "def process", 10, 20, false⟩,
      ⟨1, "Viewer 1", "return input", 30, 40, true⟩],
    [c9Conn],
    [(⟨0, false, 0⟩, []), (⟨0, true, 0⟩, [c9Conn]),
      (⟨1, false, 0⟩, [c9Conn]), (⟨1, true, 0⟩, [])]⟩

end NodeEditor

/- ----------------------------------------------------------------------
Theorems.
---------------------------------------------------------------------- -/

namespace NodeEditor

theorem canExecFrom_iff {executed : List Nat} {nid : Nat} :
    ∀ {i : Nat} {inputs : List (List Connection)},
      canExecFrom executed nid i inputs = true ↔
        ∀ u ∈ upstreamsFrom nid i inputs, u ∈ executed := by
  intro i inputs
  induction inputs generalizing i with
  | nil => simp [canExecFrom, upstreamsFrom]
  | cons cs rest ih =>
    simp only [canExecFrom, upstreamsFrom, Bool.and_eq_true, List.all_eq_true,
      decide_eq_true_eq, List.mem_append, List.mem_map, ih]
    constructor
    · rintro ⟨h1, h2⟩ u (⟨c, hc, rfl⟩ | hu)
      · exact h1 c hc
      · exact h2 u hu
    · intro h
      exact ⟨fun c hc => h _ (Or.inl ⟨c, hc, rfl⟩), fun u hu => h u (Or.inr hu)⟩

theorem can_execute_iff {V : Type} {executed : List Nat} {n : Node V} :
    can_execute executed n = true ↔ ∀ u ∈ n.upstreamList, u ∈ executed :=
  canExecFrom_iff

theorem gatherFrom_eq_filterMap {V : Type} (results : Nat → Option V) (nid : Nat) :
    ∀ (i : Nat) (inputs : List (List Connection)),
      gatherFrom results nid i inputs = (upstreamsFrom nid i inputs).filterMap results := by
  intro i inputs
  induction inputs generalizing i with
  | nil => simp [gatherFrom, upstreamsFrom]
  | cons cs rest ih =>
    simp only [gatherFrom, upstreamsFrom, List.filterMap_append, ih]
    congr 1
    rw [List.filterMap_map]
    rfl

theorem gather_inputs_eq_filterMap {V : Type} (results : Nat → Option V) (n : Node V) :
    gather_inputs results n = n.upstreamList.filterMap results :=
  gatherFrom_eq_filterMap results n.nid 0 n.inputs

/-- C10: `PortItem.add_connection` leaves the collection unchanged when the
connection is already present (and is idempotent), `PortItem.
remove_connection` is a no-op when the connection is absent, and under every
sequence of add/remove operations a collection that starts empty never
contains duplicate entries. -/
theorem port_connection_collection_props :
    (∀ l c, c ∈ l → add_connection l c = l) ∧
    (∀ l c, add_connection (add_connection l c) c = add_connection l c) ∧
    (∀ l c, c ∉ l → remove_connection l c = l) ∧
    (∀ ops, (applyOps ops).Nodup) := by
  have hmem : ∀ (l : List Connection) c, c ∈ add_connection l c := by
    intro l c
    unfold add_connection
    split
    · assumption
    · simp
  have hadd : ∀ (l : List Connection) c, c ∈ l → add_connection l c = l := by
    intro l c h
    simp [add_connection, h]
  refine ⟨hadd, fun l c => hadd _ c (hmem l c), ?_, ?_⟩
  · intro l c h
    simp [remove_connection, h]
  · intro ops
    have general : ∀ (l : List Connection), l.Nodup → (ops.foldl applyOp l).Nodup := by
      induction ops with
      | nil => intro l h; exact h
      | cons op rest ih =>
        intro l h
        refine ih (applyOp l op) ?_
        cases op with
        | add c =>
          by_cases hc : c ∈ l
          · simpa [applyOp, add_connection, hc] using h
          · simp [applyOp, add_connection, hc, List.nodup_append, h]
        | rem c =>
          by_cases hc : c ∈ l
          · simpa [applyOp, remove_connection, hc] using h.erase c
          · simpa [applyOp, remove_connection, hc] using h
    exact general [] List.nodup_nil

theorem port_connection_collection_props_witness :
    opConnA ∈ [opConnA] ∧ add_connection [opConnA] opConnA = [opConnA] ∧
    opConnB ∉ [opConnA] ∧ remove_connection [opConnA] opConnB = [opConnA] ∧
    (applyOps opSeq).Nodup :=
  ⟨by decide, port_connection_collection_props.1 [opConnA] opConnA (by decide),
    by decide, port_connection_collection_props.2.2.1 [opConnA] opConnB (by decide),
    port_connection_collection_props.2.2.2 opSeq⟩

/-- C6 counterexample: dragging from node 0's output port and releasing on
the same node's input port is accepted by `NodeCanvas.mouseReleaseEvent`
(the handler checks only that the ports differ and have opposite
directions; it never compares the owning nodes), so the claim that a
connection between two ports of the same node is rejected with the graph
unchanged is false: the scene gains a connection and it is registered on
both ports. -/
theorem same_node_connection_accepted_cex :
    pOut0.node = pIn0.node ∧
    st6.sceneConns = [] ∧
    (mouseReleaseEvent st6 pOut0 pIn0 7).sceneConns = [⟨7, pOut0, pIn0⟩] ∧
    (mouseReleaseEvent st6 pOut0 pIn0 7).portConns pIn0 = [⟨7, pOut0, pIn0⟩] ∧
    (mouseReleaseEvent st6 pOut0 pIn0 7).portConns pOut0 = [⟨7, pOut0, pIn0⟩] := by
  refine ⟨rfl, rfl, ?_, ?_, ?_⟩ <;> rfl

/-- C6 (amended): `NodeCanvas.mouseReleaseEvent` rejects a completion
attempt exactly when both ports have the same direction or the release port
is the start port itself — same-node connections between an output and an
input port are accepted.  On rejection the whole state (scene, every port
collection, node list) is exactly as before the drag; on acceptance the new
connection is appended to the scene and registered symmetrically on both
ports' collections, all other ports and the node list being untouched. -/
theorem mouse_release_validation_amended (st : UIState) (startP itemP : PortRef) (cid : Nat) :
    (startP.is_output = itemP.is_output → mouseReleaseEvent st startP itemP cid = st) ∧
    (itemP = startP → mouseReleaseEvent st startP itemP cid = st) ∧
    (itemP ≠ startP → startP.is_output ≠ itemP.is_output →
      (mouseReleaseEvent st startP itemP cid).sceneConns =
        st.sceneConns ++ [⟨cid, startP, itemP⟩] ∧
      (mouseReleaseEvent st startP itemP cid).portConns startP =
        add_connection (st.portConns startP) ⟨cid, startP, itemP⟩ ∧
      (mouseReleaseEvent st startP itemP cid).portConns itemP =
        add_connection (st.portConns itemP) ⟨cid, startP, itemP⟩ ∧
      (∀ q, q ≠ startP → q ≠ itemP →
        (mouseReleaseEvent st startP itemP cid).portConns q = st.portConns q) ∧
      (mouseReleaseEvent st startP itemP cid).nodes = st.nodes) := by
  refine ⟨?_, ?_, ?_⟩
  · intro hdir
    unfold mouseReleaseEvent
    split
    · simp [hdir]
    · rfl
  · intro heq
    simp [mouseReleaseEvent, heq]
  · intro hne hdir
    unfold mouseReleaseEvent
    rw [if_pos hne, if_pos hdir]
    refine ⟨rfl, ?_, ?_, ?_, rfl⟩
    · simp [updatePort, hne, Ne.symm hne]
    · simp [updatePort, hne, Ne.symm hne]
    · intro q hq1 hq2
      simp [updatePort, hq1, hq2]

theorem mouse_release_validation_amended_witness :
    pIn0.is_output = pIn1.is_output ∧ mouseReleaseEvent st6 pIn0 pIn1 3 = st6 ∧
    pIn0 ≠ pOut0 ∧ pOut0.is_output ≠ pIn0.is_output ∧
    (mouseReleaseEvent st6 pOut0 pIn0 7).sceneConns =
      st6.sceneConns ++ [⟨7, pOut0, pIn0⟩] :=
  ⟨rfl, (mouse_release_validation_amended st6 pIn0 pIn1 3).1 rfl,
    by decide, by decide,
    ((mouse_release_validation_amended st6 pOut0 pIn0 7).2.2 (by decide) (by decide)).1⟩

/-- C3: every failure while evaluating a node's code is contained inside
`NodeItem.execute_code`: if `exec` raises, if no `process` callable is
defined, or if the `process` invocation raises, the function returns
normally (nothing propagates), the report carries the node's title and the
underlying message, and the node's result — `None` at that point of the
pass — stays `None`. -/
theorem execute_code_exception_contained {V : Type} (results : Nat → Option V) (n : Node V)
    (h0 : results n.nid = none) :
    (∀ msg, n.code = Code.raises msg →
      execute_code results n = (none, Report.failure n.title msg)) ∧
    (n.code = Code.noProcess →
      execute_code results n = (none, Report.missingProcess n.title)) ∧
    (∀ f msg, n.code = Code.defines f →
      f (process_args (gather_inputs results n)) = Except.error msg →
      execute_code results n = (none, Report.failure n.title msg)) := by
  refine ⟨?_, ?_, ?_⟩
  · intro msg hc
    simp [execute_code, hc, h0]
  · intro hc
    simp [execute_code, hc, h0]
  · intro f msg hc hf
    simp [execute_code, hc, call_process, hf, h0]

theorem execute_code_exception_contained_witness :
    (fun _ => (none : Option Nat)) nRaise.nid = none ∧
    execute_code (fun _ => (none : Option Nat)) nRaise = (none, Report.failure "T" "boom") :=
  ⟨rfl, (execute_code_exception_contained (fun _ => none) nRaise rfl).1 "boom" rfl⟩

/-- C5: when the code defines `process`, `NodeItem.execute_code` invokes it
with the single upstream value when exactly one is available, with the
single argument `None` when none is available, and with the collected values
unpacked as positional arguments when several are available; a normal
return value of the invocation becomes the node's result. -/
theorem execute_code_process_invocation {V : Type} (results : Nat → Option V) (n : Node V)
    (f : List (Option V) → Except String (Option V)) (hc : n.code = Code.defines f) :
    (gather_inputs results n = [] →
      execute_code results n = call_process f [none] (results n.nid) n.title) ∧
    (∀ v, gather_inputs results n = [v] →
      execute_code results n = call_process f [some v] (results n.nid) n.title) ∧
    (∀ vs, gather_inputs results n = vs → vs ≠ [] →
      execute_code results n = call_process f (vs.map some) (results n.nid) n.title) ∧
    (∀ v, f (process_args (gather_inputs results n)) = Except.ok v →
      (execute_code results n).1 = v) := by
  refine ⟨?_, ?_, ?_, ?_⟩
  · intro h
    simp [execute_code, hc, process_args, h]
  · intro v h
    simp [execute_code, hc, process_args, h]
  · intro vs h hne
    simp [execute_code, hc, process_args, h, hne]
  · intro v h
    simp [execute_code, hc, call_process, h]

theorem execute_code_process_invocation_witness :
    c5Node.code = Code.defines argCount ∧
    gather_inputs c5Results c5Node = [7] ∧
    execute_code c5Results c5Node = call_process argCount [some 7] (c5Results c5Node.nid) c5Node.title ∧
    execute_code c5Results c5Node = (some 1, Report.success) :=
  ⟨rfl, rfl,
    (execute_code_process_invocation c5Results c5Node argCount rfl).2.1 7 rfl, rfl⟩

/-- C4 counterexample: in the one-node graph `cg4` the only node's `process`
raises, yet the pass summary reports 1 of 1 nodes executed — the exception
is caught inside `NodeItem.execute_code`, so `execute_graph`'s surrounding
`try` never fires and `executed.add(node)` still runs.  The claim demands an
executed count of `1 - 1 = 0`, so a node whose evaluation raised is NOT
excluded from the executed count (its result does stay unset). -/
theorem failing_node_counted_executed_cex :
    pass_summary cg4 = (1, 1) ∧
    (execute_graph cg4).results 0 = none ∧
    cg4.length - 1 = 0 ∧ (1 : Nat) ≠ 0 :=
  ⟨rfl, rfl, rfl, by decide⟩

/-- C8 counterexample: in `exG8` the sink (node 2) has two inbound
connections; upstream node 0 failed (result `None`) and upstream node 1
produced 5.  The sink is still executed, but its `process` — which returns
the number of positional arguments it received — yields 1: the failed
upstream's slot is skipped entirely (`if source_node.result is not None`),
not presented as the value `None`, which would have produced 2 arguments. -/
theorem failed_upstream_omitted_cex :
    (execute_graph exG8).executed = [0, 1, 2] ∧
    (execute_graph exG8).results 0 = none ∧
    (execute_graph exG8).results 2 = some 1 ∧
    process_args (gather_inputs (execute_graph exG8).results g8Sink) = [some 5] ∧
    ([some 5] : List (Option Nat)) ≠ [some 5, none] :=
  ⟨rfl, rfl, rfl, rfl, by decide⟩

/-- C8 (amended): a node with a failed upstream still attempts execution
once its scheduling prerequisites are met — `can_execute` looks only at
which upstream nodes are in the executed set, never at their results — but
the failed upstream's value is omitted from the collected inputs (the
collected list is exactly the upstream results that are not `None`, in
discovery order); `process` receives the single argument `None` only when
zero upstream values are available. -/
theorem gather_inputs_amended {V : Type} (results : Nat → Option V) (n : Node V) :
    gather_inputs results n = n.upstreamList.filterMap results ∧
    (gather_inputs results n = [] → process_args (gather_inputs results n) = [none]) ∧
    (gather_inputs results n ≠ [] →
      process_args (gather_inputs results n) = (gather_inputs results n).map some) ∧
    (∀ executed : List Nat,
      can_execute executed n = true ↔ ∀ u ∈ n.upstreamList, u ∈ executed) := by
  refine ⟨gather_inputs_eq_filterMap results n, ?_, ?_, fun executed => can_execute_iff⟩
  · intro h
    simp [process_args, h]
  · intro h
    simp [process_args, h]

theorem gather_inputs_amended_witness :
    gather_inputs g8Results g8Sink = [5] ∧
    gather_inputs g8Results g8Sink = g8Sink.upstreamList.filterMap g8Results ∧
    gather_inputs g8Results g8Sink ≠ [] ∧
    process_args (gather_inputs g8Results g8Sink) = (gather_inputs g8Results g8Sink).map some :=
  ⟨rfl, (gather_inputs_amended g8Results g8Sink).1, by decide,
    (gather_inputs_amended g8Results g8Sink).2.2.1 (by decide)⟩

/- ----------------------------------------------------------------------
Scheduling-loop machinery for C1, C2 and C4.
---------------------------------------------------------------------- -/

theorem passStep_cases {V : Type} (s : PassState V) (n : Node V) :
    (passStep s n = s ∧ (n.nid ∈ s.executed ∨ can_execute s.executed n = false)) ∨
      (n.nid ∉ s.executed ∧ can_execute s.executed n = true ∧
        passStep s n =
          { executed := s.executed ++ [n.nid],
            results := fun m => if m = n.nid then (execute_code s.results n).1
              else s.results m }) := by
  by_cases h1 : n.nid ∈ s.executed
  · exact Or.inl ⟨by simp [passStep, h1], Or.inl h1⟩
  · by_cases h2 : can_execute s.executed n = true
    · exact Or.inr ⟨h1, h2, by simp [passStep, h1, h2]⟩
    · exact Or.inl ⟨by simp [passStep, h1, h2], Or.inr (by simpa using h2)⟩

theorem foldl_passStep_extends {V : Type} (l : List (Node V)) :
    ∀ s : PassState V, ∃ t, (l.foldl passStep s).executed = s.executed ++ t ∧
      ∀ m ∈ t, ∃ nd ∈ l, nd.nid = m := by
  induction l with
  | nil => intro s; exact ⟨[], by simp, by simp⟩
  | cons n rest ih =>
    intro s
    obtain ⟨t, ht, hmem⟩ := ih (passStep s n)
    rcases passStep_cases s n with ⟨heq, -⟩ | ⟨-, -, heq⟩
    · refine ⟨t, ?_, ?_⟩
      · rw [List.foldl_cons, ht, heq]
      · intro m hm
        obtain ⟨nd, hnd, hid⟩ := hmem m hm
        exact ⟨nd, List.mem_cons_of_mem n hnd, hid⟩
    · refine ⟨n.nid :: t, ?_, ?_⟩
      · rw [List.foldl_cons, ht, heq]
        simp
      · intro m hm
        rcases List.mem_cons.1 hm with rfl | hm
        · exact ⟨n, List.mem_cons_self n rest, rfl⟩
        · obtain ⟨nd, hnd, hid⟩ := hmem m hm
          exact ⟨nd, List.mem_cons_of_mem n hnd, hid⟩

theorem foldl_passStep_executed_eq {V : Type} (l : List (Node V)) :
    ∀ s : PassState V, (l.foldl passStep s).executed = s.executed →
      l.foldl passStep s = s ∧ ∀ n ∈ l, passStep s n = s := by
  induction l with
  | nil => intro s _; exact ⟨rfl, by simp⟩
  | cons n rest ih =>
    intro s h
    rw [List.foldl_cons] at h
    obtain ⟨t, ht, -⟩ := foldl_passStep_extends rest (passStep s n)
    rcases passStep_cases s n with ⟨heq, -⟩ | ⟨-, -, heq⟩
    · rw [heq] at h ht
      obtain ⟨hfold, hall⟩ := ih s h
      refine ⟨by rw [List.foldl_cons, heq]; exact hfold, ?_⟩
      intro m hm
      rcases List.mem_cons.1 hm with rfl | hm
      · exact heq
      · exact hall m hm
    · exfalso
      rw [heq] at h ht
      rw [ht] at h
      have := congrArg List.length h
      simp at this

theorem scan_fixpoint {V : Type} {g : List (Node V)} {s : PassState V}
    (h : scanNodes g s = s) :
    ∀ n ∈ g, n.nid ∉ s.executed → can_execute s.executed n = false := by
  intro n hn hmem
  have h2 := (foldl_passStep_executed_eq g s (by rw [show g.foldl passStep s = s from h])).2 n hn
  rcases passStep_cases s n with ⟨-, hcase⟩ | ⟨-, -, heq⟩
  · rcases hcase with hc | hc
    · exact absurd hc hmem
    · exact hc
  · exfalso
    rw [h2] at heq
    have := congrArg (fun st : PassState V => st.executed.length) heq
    simp at this

theorem passStep_inv {V : Type} {g : List (Node V)} (hnd : (nids g).Nodup)
    {s : PassState V} {n : Node V} (hn : n ∈ g) (hinv : PassInv g s) :
    PassInv g (passStep s n) := by
  obtain ⟨hnodup, hsub, hord⟩ := hinv
  rcases passStep_cases s n with ⟨heq, -⟩ | ⟨h1, h2, heq⟩
  · rw [heq]; exact ⟨hnodup, hsub, hord⟩
  · rw [heq]
    refine ⟨?_, ?_, ?_⟩
    · simp [List.nodup_append, hnodup, h1]
    · intro m hm
      rcases List.mem_append.1 hm with hm | hm
      · exact hsub m hm
      · simp only [List.mem_singleton] at hm
        subst hm
        exact List.mem_map_of_mem Node.nid hn
    · intro i hi u hu
      simp only [List.length_append, List.length_singleton] at hi
      by_cases hlt : i < s.executed.length
      · rw [List.getElem_append_left hlt] at hu
        have hmem := hord i hlt u hu
        rw [List.take_append_of_le_length (le_of_lt hlt)]
        exact hmem
      · have hieq : i = s.executed.length := by omega
        subst hieq
        have hlt : s.executed.length < (s.executed ++ [n.nid]).length := by simp
        have hget : (s.executed ++ [n.nid])[s.executed.length] = n.nid := by
          simp
        rw [hget] at hu
        obtain ⟨nd, hndg, hndeq, hul⟩ := hu
        have hndn : nd = n := List.inj_on_of_nodup_map hnd hndg hn (by rw [hndeq])
        subst hndn
        have hall := can_execute_iff.1 h2
        rw [List.take_left]
        exact hall u hul

theorem foldl_passStep_inv {V : Type} {g : List (Node V)} (hnd : (nids g).Nodup) :
    ∀ l : List (Node V), (∀ nd ∈ l, nd ∈ g) →
      ∀ s : PassState V, PassInv g s → PassInv g (l.foldl passStep s) := by
  intro l
  induction l with
  | nil => intro _ s h; exact h
  | cons n rest ih =>
    intro hsub s h
    rw [List.foldl_cons]
    exact ih (fun x hx => hsub x (List.mem_cons_of_mem n hx)) _
      (passStep_inv hnd (hsub n (List.mem_cons_self n rest)) h)

theorem executed_length_le {V : Type} {g : List (Node V)} (hnd : (nids g).Nodup)
    {s : PassState V} (hinv : PassInv g s) : s.executed.length ≤ g.length := by
  have h1 : s.executed.toFinset.card = s.executed.length :=
    List.toFinset_card_of_nodup hinv.1
  have h2 : (nids g).toFinset.card = (nids g).length := List.toFinset_card_of_nodup hnd
  have hsub : s.executed.toFinset ⊆ (nids g).toFinset := by
    intro m hm
    simp only [List.mem_toFinset] at hm ⊢
    exact hinv.2.1 m hm
  have h3 := Finset.card_le_card hsub
  have h4 : (nids g).length = g.length := by simp [nids]
  omega

theorem executed_full_complete {V : Type} {g : List (Node V)} (hnd : (nids g).Nodup)
    {s : PassState V} (hinv : PassInv g s) (hlen : g.length ≤ s.executed.length) :
    ∀ m ∈ nids g, m ∈ s.executed := by
  have h1 : s.executed.toFinset.card = s.executed.length :=
    List.toFinset_card_of_nodup hinv.1
  have h2 : (nids g).toFinset.card = (nids g).length := List.toFinset_card_of_nodup hnd
  have hsub : s.executed.toFinset ⊆ (nids g).toFinset := by
    intro m hm
    simp only [List.mem_toFinset] at hm ⊢
    exact hinv.2.1 m hm
  have h4 : (nids g).length = g.length := by simp [nids]
  have heq : s.executed.toFinset = (nids g).toFinset := by
    apply Finset.eq_of_subset_of_card_le hsub
    omega
  intro m hm
  have : m ∈ s.executed.toFinset := by
    rw [heq]
    simpa using hm
  simpa using this

theorem execLoop_inv_post {V : Type} {g : List (Node V)} (hnd : (nids g).Nodup) :
    ∀ (fuel : Nat) (s : PassState V), PassInv g s → g.length < s.executed.length + fuel →
      PassInv g (execLoop g fuel s) ∧
        ((∀ m ∈ nids g, m ∈ (execLoop g fuel s).executed) ∨
          scanNodes g (execLoop g fuel s) = execLoop g fuel s) := by
  intro fuel
  induction fuel with
  | zero =>
    intro s hinv hbound
    exact absurd (executed_length_le hnd hinv) (by omega)
  | succ fuel ih =>
    intro s hinv hbound
    by_cases hfull : s.executed.length < g.length
    · by_cases hprog : s.executed.length < (scanNodes g s).executed.length
      · have hloop : execLoop g (fuel + 1) s = execLoop g fuel (scanNodes g s) := by
          simp only [execLoop, if_pos hfull, if_pos hprog]
        rw [hloop]
        exact ih (scanNodes g s)
          (foldl_passStep_inv hnd g (fun _ h => h) s hinv) (by omega)
      · obtain ⟨t, ht, -⟩ := foldl_passStep_extends g s
        have hlen : (scanNodes g s).executed.length = s.executed.length + t.length := by
          rw [show (scanNodes g s).executed = s.executed ++ t from ht]
          simp
        have htnil : t = [] := by
          have : t.length = 0 := by omega
          exact List.eq_nil_of_length_eq_zero this
        subst htnil
        have hexeq : (scanNodes g s).executed = s.executed := by
          rw [show (scanNodes g s).executed = s.executed ++ [] from ht]
          simp
        have hfix : scanNodes g s = s := (foldl_passStep_executed_eq g s hexeq).1
        have hloop : execLoop g (fuel + 1) s = scanNodes g s := by
          simp only [execLoop, if_pos hfull, if_neg hprog]
        rw [hloop, hfix]
        exact ⟨hinv, Or.inr hfix⟩
    · have hloop : execLoop g (fuel + 1) s = s := by
        simp only [execLoop, if_neg hfull]
      rw [hloop]
      exact ⟨hinv, Or.inl (executed_full_complete hnd hinv (by omega))⟩

theorem exists_min_elt {V : Type} (g : List (Node V)) :
    ∀ (k : Nat) (S : Finset Nat), S.card ≤ k →
      (∀ m ∈ S, ¬ Relation.TransGen (upstream g) m m) → S.Nonempty →
      ∃ m ∈ S, ∀ u, upstream g u m → u ∉ S := by
  intro k
  induction k with
  | zero =>
    rintro S hcard hnc ⟨x, hx⟩
    have : 0 < S.card := Finset.card_pos.2 ⟨x, hx⟩
    omega
  | succ k ih =>
    rintro S hcard hnc ⟨x, hx⟩
    classical
    by_cases hmin : ∀ u, upstream g u x → u ∉ S
    · exact ⟨x, hx, hmin⟩
    · push_neg at hmin
      obtain ⟨u, hu, huS⟩ := hmin
      set S' := S.filter (fun m => Relation.TransGen (upstream g) m x) with hS'
      have hsubS : S' ⊆ S := Finset.filter_subset _ _
      have hxnot : x ∉ S' := by
        simp only [hS', Finset.mem_filter, not_and]
        intro _
        exact hnc x hx
      have huS' : u ∈ S' := by
        simp only [hS', Finset.mem_filter]
        exact ⟨huS, Relation.TransGen.single hu⟩
      have hss : S' ⊂ S := (Finset.ssubset_iff_of_subset hsubS).2 ⟨x, hx, hxnot⟩
      have hcard' : S'.card ≤ k := by
        have := Finset.card_lt_card hss
        omega
      obtain ⟨m, hmS', hmmin⟩ := ih S' hcard' (fun m hm => hnc m (hsubS hm)) ⟨u, huS'⟩
      refine ⟨m, hsubS hmS', ?_⟩
      intro v hv hvS
      have hmx : Relation.TransGen (upstream g) m x := (Finset.mem_filter.1 hmS').2
      exact hmmin v hv (Finset.mem_filter.2 ⟨hvS, Relation.TransGen.head hv hmx⟩)

theorem blocked_step {V : Type} {g : List (Node V)} {m : Nat} (h : Blocked g m) :
    ∃ u, upstream g u m ∧ Blocked g u := by
  obtain ⟨c, hc, hr⟩ := h
  rcases Relation.ReflTransGen.cases_tail hr with heq | ⟨u, hcu, hum⟩
  · subst heq
    obtain ⟨u, hcu, hum⟩ := Relation.TransGen.tail'_iff.1 hc
    exact ⟨u, hum, ⟨m, hc, hcu⟩⟩
  · exact ⟨u, hum, ⟨c, hc, hcu⟩⟩

theorem inorder_not_blocked {V : Type} {g : List (Node V)} {ex : List Nat}
    (hord : InOrder g ex) : ∀ m ∈ ex, ¬ Blocked g m := by
  have main : ∀ i, ∀ h : i < ex.length, ¬ Blocked g ex[i] := by
    intro i
    induction i using Nat.strong_induction_on with
    | _ i ih =>
      intro hi hb
      obtain ⟨u, hu, hub⟩ := blocked_step hb
      have hmem := hord i hi u hu
      obtain ⟨j, hj, hje⟩ := List.getElem_of_mem hmem
      have hji : j < i := by
        have := List.length_take i ex
        omega
      have hjlen : j < ex.length := by omega
      have hgj : ex[j] = u := by
        rw [← hje, List.getElem_take]
      exact ih j hji hjlen (by rw [hgj]; exact hub)
  intro m hm hb
  obtain ⟨i, hi, hie⟩ := List.getElem_of_mem hm
  exact main i hi (by rw [hie]; exact hb)

theorem fixpoint_unblocked_executed {V : Type} {g : List (Node V)}
    (hnd : (nids g).Nodup) (hcl : Closed g) {s : PassState V}
    (hfix : scanNodes g s = s) :
    ∀ m ∈ nids g, ¬ Blocked g m → m ∈ s.executed := by
  classical
  by_contra hcon
  push_neg at hcon
  obtain ⟨m0, hm0g, hm0nb, hm0ne⟩ := hcon
  set S := (nids g).toFinset.filter (fun x => ¬ Blocked g x ∧ x ∉ s.executed) with hS
  have hm0S : m0 ∈ S := by
    simp only [hS, Finset.mem_filter, List.mem_toFinset]
    exact ⟨hm0g, hm0nb, hm0ne⟩
  have hnc : ∀ m ∈ S, ¬ Relation.TransGen (upstream g) m m := by
    intro m hm htg
    have hmB : Blocked g m := ⟨m, htg, Relation.ReflTransGen.refl⟩
    have := (Finset.mem_filter.1 hm).2.1
    exact this hmB
  obtain ⟨m, hmS, hmin⟩ := exists_min_elt g S.card S le_rfl hnc ⟨m0, hm0S⟩
  have hmS' := Finset.mem_filter.1 hmS
  obtain ⟨hmg, hmnb, hmne⟩ :
      m ∈ nids g ∧ ¬ Blocked g m ∧ m ∉ s.executed := by
    refine ⟨?_, hmS'.2⟩
    simpa using hmS'.1
  obtain ⟨nd, hndg, hndid⟩ := List.mem_map.1 hmg
  have hup : ∀ u ∈ nd.upstreamList, u ∈ s.executed := by
    intro u hu
    have hupm : upstream g u m := ⟨nd, hndg, hndid, hu⟩
    have hug : u ∈ nids g := hcl u m hupm
    by_contra hune
    have hunb : ¬ Blocked g u := by
      rintro ⟨c, hc, hcu⟩
      exact hmnb ⟨c, hc, hcu.tail hupm⟩
    refine hmin u hupm ?_
    simp only [hS, Finset.mem_filter, List.mem_toFinset]
    exact ⟨hug, hunb, hune⟩
  have hce : can_execute s.executed nd = true := can_execute_iff.2 hup
  have hfalse := scan_fixpoint hfix nd hndg (by rw [hndid]; exact hmne)
  rw [hce] at hfalse
  simp at hfalse

theorem initState_inv {V : Type} (g : List (Node V)) : PassInv g (initState V) := by
  refine ⟨List.nodup_nil, by simp [initState], ?_⟩
  intro i hi
  simp [initState] at hi

theorem execute_graph_main {V : Type} (g : List (Node V))
    (hnd : (nids g).Nodup) (hcl : Closed g) (hac : Acyclic g) :
    PassInv g (execute_graph g) ∧ ∀ m ∈ nids g, m ∈ (execute_graph g).executed := by
  obtain ⟨hinv, hpost⟩ := execLoop_inv_post hnd (g.length + 1) (initState V)
    (initState_inv g) (by simp [initState])
  refine ⟨hinv, ?_⟩
  rcases hpost with h | hfix
  · exact h
  · intro m hm
    refine fixpoint_unblocked_executed hnd hcl hfix m hm ?_
    rintro ⟨c, hc, -⟩
    exact hac c hc

/-- C1: on an acyclic, duplicate-free, closed connection graph one pass of
`MainWindow.execute_graph` executes every node exactly once (the executed
list has no duplicates and contains exactly the node ids), and every node is
executed strictly after all nodes upstream of any of its input ports: at
each position of the execution order, all upstream node ids already occur
among the earlier positions.  Reading each position as its own wave, every
node is in exactly one wave and its wave index exceeds those of all its
upstream nodes. -/
theorem execute_graph_acyclic_runs_all_once_in_order {V : Type} (g : List (Node V))
    (hnd : (nids g).Nodup) (hcl : Closed g) (hac : Acyclic g) :
    (execute_graph g).executed.Nodup ∧
    (∀ m, m ∈ (execute_graph g).executed ↔ m ∈ nids g) ∧
    InOrder g (execute_graph g).executed := by
  obtain ⟨hinv, hall⟩ := execute_graph_main g hnd hcl hac
  exact ⟨hinv.1, fun m => ⟨fun h => hinv.2.1 m h, fun h => hall m h⟩, hinv.2.2⟩

theorem no_upstream_exG1_0 : ∀ u, ¬ upstream exG1 u 0 := by
  rintro u ⟨n, hn, hid, hu⟩
  simp only [exG1, List.mem_cons, List.not_mem_nil, or_false] at hn
  rcases hn with rfl | rfl
  · simp [Node.upstreamList, upstreamsFrom] at hu
  · exact absurd hid (by decide)

theorem upstream_exG1_char : ∀ u m, upstream exG1 u m → u = 0 ∧ m = 1 := by
  rintro u m ⟨n, hn, hid, hu⟩
  simp only [exG1, List.mem_cons, List.not_mem_nil, or_false] at hn
  rcases hn with rfl | rfl
  · simp [Node.upstreamList, upstreamsFrom] at hu
  · simp only [Node.upstreamList, upstreamsFrom, chainConn, Connection.srcNode,
      Connection.otherPort, inputRef] at hu
    simp at hu
    exact ⟨hu, hid.symm⟩

theorem closed_exG1 : Closed exG1 := by
  intro u m h
  obtain ⟨rfl, rfl⟩ := upstream_exG1_char u m h
  simp [nids, exG1]

theorem acyclic_of_rank {V : Type} {g : List (Node V)} (rank : Nat → Nat)
    (h : ∀ u m, upstream g u m → rank u < rank m) : Acyclic g := by
  intro m htg
  have mono : ∀ a b, Relation.TransGen (upstream g) a b → rank a < rank b := by
    intro a b hab
    induction hab with
    | single h1 => exact h _ _ h1
    | tail _ h2 ih => exact lt_trans ih (h _ _ h2)
  exact lt_irrefl _ (mono m m htg)

theorem acyclic_exG1 : Acyclic exG1 := by
  refine acyclic_of_rank id ?_
  intro u m h
  obtain ⟨rfl, rfl⟩ := upstream_exG1_char u m h
  decide

theorem execute_graph_acyclic_witness :
    (nids exG1).Nodup ∧
    ((execute_graph exG1).executed.Nodup ∧
      (∀ m, m ∈ (execute_graph exG1).executed ↔ m ∈ nids exG1) ∧
      InOrder exG1 (execute_graph exG1).executed) ∧
    (execute_graph exG1).executed = [0, 1] :=
  ⟨by decide,
    execute_graph_acyclic_runs_all_once_in_order exG1 (by decide) closed_exG1 acyclic_exG1,
    rfl⟩

/-- C2: on a duplicate-free, closed graph containing a dependency cycle,
the pass of `MainWindow.execute_graph` never executes any node lying on a
cycle (more generally, any node transitively blocked by one), executes every
node that is not transitively blocked, and still terminates with the
`executed/total` summary. -/
theorem execute_graph_cycle_excluded {V : Type} (g : List (Node V))
    (hnd : (nids g).Nodup) (hcl : Closed g)
    (hcyc : ∃ m, Relation.TransGen (upstream g) m m) :
    (∀ m, Relation.TransGen (upstream g) m m → m ∉ (execute_graph g).executed) ∧
    (∀ m ∈ nids g, ¬ Blocked g m → m ∈ (execute_graph g).executed) ∧
    pass_summary g = ((execute_graph g).executed.length, g.length) := by
  obtain ⟨hinv, hpost⟩ := execLoop_inv_post hnd (g.length + 1) (initState V)
    (initState_inv g) (by simp [initState])
  have hnb := inorder_not_blocked hinv.2.2
  refine ⟨?_, ?_, rfl⟩
  · intro m htg hmem
    exact hnb m hmem ⟨m, htg, Relation.ReflTransGen.refl⟩
  · intro m hm hmb
    rcases hpost with h | hfix
    · exact h m hm
    · exact fixpoint_unblocked_executed hnd hcl hfix m hm hmb

theorem upstream_exG2_char : ∀ u m, upstream exG2 u m →
    (u = 1 ∧ m = 0) ∨ (u = 0 ∧ m = 1) := by
  rintro u m ⟨n, hn, hid, hu⟩
  simp only [exG2, List.mem_cons, List.not_mem_nil, or_false] at hn
  rcases hn with rfl | rfl | rfl
  · simp only [Node.upstreamList, upstreamsFrom, cycConn2, Connection.srcNode,
      Connection.otherPort, inputRef] at hu
    simp at hu
    exact Or.inl ⟨hu, hid.symm⟩
  · simp only [Node.upstreamList, upstreamsFrom, cycConn1, Connection.srcNode,
      Connection.otherPort, inputRef] at hu
    simp at hu
    exact Or.inr ⟨hu, hid.symm⟩
  · simp [Node.upstreamList, upstreamsFrom] at hu

theorem closed_exG2 : Closed exG2 := by
  intro u m h
  rcases upstream_exG2_char u m h with ⟨rfl, rfl⟩ | ⟨rfl, rfl⟩ <;> simp [nids, exG2]

theorem upstream_exG2_01 : upstream exG2 0 1 := by
  refine ⟨⟨1, "B", [[cycConn1]], Code.defines (fun _ => Except.ok (some 2))⟩, ?_, rfl, ?_⟩
  · simp [exG2]
  · simp only [Node.upstreamList, upstreamsFrom, cycConn1, Connection.srcNode,
      Connection.otherPort, inputRef]
    simp

theorem upstream_exG2_10 : upstream exG2 1 0 := by
  refine ⟨⟨0, "A", [[cycConn2]], Code.defines (fun _ => Except.ok (some 1))⟩, ?_, rfl, ?_⟩
  · simp [exG2]
  · simp only [Node.upstreamList, upstreamsFrom, cycConn2, Connection.srcNode,
      Connection.otherPort, inputRef]
    simp

theorem not_blocked_exG2_2 : ¬ Blocked exG2 2 := by
  have hnoup : ∀ u, ¬ upstream exG2 u 2 := by
    intro u h
    rcases upstream_exG2_char u 2 h with ⟨-, h2⟩ | ⟨-, h2⟩ <;> exact absurd h2 (by decide)
  rintro ⟨c, hc, hr⟩
  rcases Relation.ReflTransGen.cases_tail hr with heq | ⟨u, -, hu⟩
  · subst heq
    obtain ⟨u, -, hu⟩ := Relation.TransGen.tail'_iff.1 hc
    exact hnoup u hu
  · exact hnoup u hu

theorem execute_graph_cycle_excluded_witness :
    (nids exG2).Nodup ∧ Closed exG2 ∧
    (∃ m, Relation.TransGen (upstream exG2) m m) ∧
    0 ∉ (execute_graph exG2).executed ∧
    2 ∈ (execute_graph exG2).executed ∧
    pass_summary exG2 = (1, 3) := by
  have hcyc : Relation.TransGen (upstream exG2) 0 0 :=
    Relation.TransGen.tail (Relation.TransGen.single upstream_exG2_01) upstream_exG2_10
  have hmain := execute_graph_cycle_excluded exG2 (by decide) closed_exG2 ⟨0, hcyc⟩
  exact ⟨by decide, closed_exG2, ⟨0, hcyc⟩, hmain.1 0 hcyc,
    hmain.2.1 2 (by decide) not_blocked_exG2_2, rfl⟩

/- Machinery for the amended C4: a node whose evaluation always fails keeps
result `None` through the whole pass. -/

theorem foldl_results_none {V : Type} {g : List (Node V)} (hnd : (nids g).Nodup)
    {n : Node V} (hn : n ∈ g) (hf : FailsAlways n.code) :
    ∀ l : List (Node V), (∀ nd ∈ l, nd ∈ g) →
      ∀ s : PassState V, s.results n.nid = none →
        (l.foldl passStep s).results n.nid = none := by
  intro l
  induction l with
  | nil => intro _ s h; exact h
  | cons nd rest ih =>
    intro hsub s h
    rw [List.foldl_cons]
    refine ih (fun x hx => hsub x (List.mem_cons_of_mem nd hx)) _ ?_
    rcases passStep_cases s nd with ⟨heq, -⟩ | ⟨-, -, heq⟩
    · rw [heq]; exact h
    · rw [heq]
      by_cases hid : n.nid = nd.nid
      · have hndn : nd = n :=
          List.inj_on_of_nodup_map hnd (hsub nd (List.mem_cons_self nd rest)) hn hid.symm
        subst hndn
        show (if nd.nid = nd.nid then (execute_code s.results nd).1 else s.results nd.nid) = none
        rw [if_pos rfl]
        cases hcode : nd.code with
        | raises msg => simp [execute_code, hcode, h]
        | noProcess => simp [execute_code, hcode, h]
        | defines f =>
          rw [hcode] at hf
          obtain ⟨msg, hmsg⟩ := hf (process_args (gather_inputs s.results nd))
          simp [execute_code, hcode, call_process, hmsg, h]
      · show (if n.nid = nd.nid then (execute_code s.results nd).1 else s.results n.nid) = none
        rw [if_neg hid]
        exact h

theorem execLoop_results_none {V : Type} {g : List (Node V)} (hnd : (nids g).Nodup)
    {n : Node V} (hn : n ∈ g) (hf : FailsAlways n.code) :
    ∀ (fuel : Nat) (s : PassState V), s.results n.nid = none →
      (execLoop g fuel s).results n.nid = none := by
  intro fuel
  induction fuel with
  | zero => intro s h; exact h
  | succ fuel ih =>
    intro s h
    by_cases hfull : s.executed.length < g.length
    · by_cases hprog : s.executed.length < (scanNodes g s).executed.length
      · have hloop : execLoop g (fuel + 1) s = execLoop g fuel (scanNodes g s) := by
          simp only [execLoop, if_pos hfull, if_pos hprog]
        rw [hloop]
        exact ih (scanNodes g s) (foldl_results_none hnd hn hf g (fun _ hx => hx) s h)
      · have hloop : execLoop g (fuel + 1) s = scanNodes g s := by
          simp only [execLoop, if_pos hfull, if_neg hprog]
        rw [hloop]
        exact foldl_results_none hnd hn hf g (fun _ hx => hx) s h
    · have hloop : execLoop g (fuel + 1) s = s := by
        simp only [execLoop, if_neg hfull]
      rw [hloop]
      exact h

/-- C4 (amended): in an acyclic, duplicate-free, closed graph in which some
node's evaluation always fails (its `process` raises, or the code raises, or
defines no `process`), the pass still executes every node — including the
failing node and its dependents, because `NodeItem.execute_code` catches the
exception and `execute_graph` therefore still adds the node to `executed` —
so the summary's executed count equals the total node count rather than
excluding the failing node; the failing node's result stays `None` for the
whole pass. -/
theorem execute_graph_failure_count_amended {V : Type} (g : List (Node V))
    (hnd : (nids g).Nodup) (hcl : Closed g) (hac : Acyclic g)
    (n : Node V) (hn : n ∈ g) (hf : FailsAlways n.code) :
    (execute_graph g).executed.length = g.length ∧
    n.nid ∈ (execute_graph g).executed ∧
    (execute_graph g).results n.nid = none ∧
    pass_summary g = (g.length, g.length) := by
  obtain ⟨hinv, hall⟩ := execute_graph_main g hnd hcl hac
  have hlen : (execute_graph g).executed.length = g.length := by
    have h1 := executed_length_le hnd hinv
    have h2 : (nids g).toFinset.card = (nids g).length := List.toFinset_card_of_nodup hnd
    have h3 : (execute_graph g).executed.toFinset.card = (execute_graph g).executed.length :=
      List.toFinset_card_of_nodup hinv.1
    have hsub : (nids g).toFinset ⊆ (execute_graph g).executed.toFinset := by
      intro m hm
      simp only [List.mem_toFinset] at hm ⊢
      exact hall m hm
    have h5 := Finset.card_le_card hsub
    have h4 : (nids g).length = g.length := by simp [nids]
    omega
  refine ⟨hlen, hall n.nid (List.mem_map_of_mem Node.nid hn), ?_, ?_⟩
  · exact execLoop_results_none hnd hn hf (g.length + 1) (initState V) rfl
  · simp only [pass_summary, hlen]

theorem no_upstream_cg4 : ∀ u m, ¬ upstream cg4 u m := by
  rintro u m ⟨n, hn, -, hu⟩
  simp only [cg4, List.mem_singleton] at hn
  subst hn
  simp [Node.upstreamList, upstreamsFrom] at hu

/- ----------------------------------------------------------------------
Node-deletion machinery for C9.
---------------------------------------------------------------------- -/

theorem mem_remove_connection {l : List Connection} {c c' : Connection}
    (h : c' ∈ remove_connection l c) : c' ∈ l := by
  unfold remove_connection at h
  split at h
  · exact List.mem_of_mem_erase h
  · exact h

theorem remove_connection_preserves {l : List Connection} {c c' : Connection}
    (hne : c' ≠ c) (h : c' ∈ l) : c' ∈ remove_connection l c := by
  unfold remove_connection
  split
  · exact (List.mem_erase_of_ne hne).2 h
  · exact h

theorem not_mem_remove_connection {l : List Connection} {c : Connection}
    (hnd : l.Nodup) : c ∉ remove_connection l c := by
  unfold remove_connection
  split
  · intro hmem
    exact (hnd.mem_erase_iff.1 hmem).1 rfl
  · next hc => exact hc

theorem remove_connection_nodup {l : List Connection} {c : Connection}
    (hnd : l.Nodup) : (remove_connection l c).Nodup := by
  unfold remove_connection
  split
  · exact hnd.erase c
  · exact hnd

theorem removeConnStep_port_subset {st : UIState} {p : PortRef} {c : Connection}
    {q : PortRef} {c' : Connection} (h : c' ∈ (removeConnStep st p c).portConns q) :
    c' ∈ st.portConns q := by
  simp only [removeConnStep, updatePort] at h
  by_cases hq : q = c.otherPort p
  · rw [if_pos hq] at h
    rw [hq]
    exact mem_remove_connection h
  · rwa [if_neg hq] at h

theorem removeConnStep_scene_subset {st : UIState} {p : PortRef} {c : Connection}
    {c' : Connection} (h : c' ∈ (removeConnStep st p c).sceneConns) :
    c' ∈ st.sceneConns := by
  simp only [removeConnStep] at h
  exact List.mem_of_mem_erase h

theorem removeConnStep_nodups {st : UIState} {p : PortRef} {c : Connection}
    (h : UINodups st) : UINodups (removeConnStep st p c) := by
  obtain ⟨h1, h2⟩ := h
  refine ⟨?_, ?_⟩
  · intro q
    simp only [removeConnStep, updatePort]
    by_cases hq : q = c.otherPort p
    · rw [if_pos hq]
      exact remove_connection_nodup (h1 _)
    · rw [if_neg hq]
      exact h1 q
  · exact h2.erase c

theorem foldRemove_port_subset (p : PortRef) :
    ∀ (L : List Connection) (st : UIState) (q : PortRef) (c' : Connection),
      c' ∈ ((L.foldl (fun s c => removeConnStep s p c) st).portConns q) →
        c' ∈ st.portConns q := by
  intro L
  induction L with
  | nil => intro st q c' h; exact h
  | cons a rest ih =>
    intro st q c' h
    rw [List.foldl_cons] at h
    exact removeConnStep_port_subset (ih (removeConnStep st p a) q c' h)

theorem foldRemove_scene_subset (p : PortRef) :
    ∀ (L : List Connection) (st : UIState) (c' : Connection),
      c' ∈ ((L.foldl (fun s c => removeConnStep s p c) st).sceneConns) →
        c' ∈ st.sceneConns := by
  intro L
  induction L with
  | nil => intro st c' h; exact h
  | cons a rest ih =>
    intro st c' h
    rw [List.foldl_cons] at h
    exact removeConnStep_scene_subset (ih (removeConnStep st p a) c' h)

theorem foldRemove_nodups (p : PortRef) :
    ∀ (L : List Connection) (st : UIState), UINodups st →
      UINodups (L.foldl (fun s c => removeConnStep s p c) st) := by
  intro L
  induction L with
  | nil => intro st h; exact h
  | cons a rest ih =>
    intro st h
    rw [List.foldl_cons]
    exact ih _ (removeConnStep_nodups h)

theorem foldRemove_port_preserves (p : PortRef) :
    ∀ (L : List Connection) (st : UIState) (q : PortRef) (c' : Connection),
      c' ∉ L → c' ∈ st.portConns q →
        c' ∈ ((L.foldl (fun s c => removeConnStep s p c) st).portConns q) := by
  intro L
  induction L with
  | nil => intro st q c' _ h; exact h
  | cons a rest ih =>
    intro st q c' hnm h
    rw [List.foldl_cons]
    refine ih _ q c' (fun hr => hnm (List.mem_cons_of_mem a hr)) ?_
    have hne : c' ≠ a := fun he => hnm (he ▸ List.mem_cons_self a rest)
    simp only [removeConnStep, updatePort]
    by_cases hq : q = a.otherPort p
    · rw [if_pos hq]
      rw [hq] at h
      exact remove_connection_preserves hne h
    · rwa [if_neg hq]

theorem foldRemove_kills (p : PortRef) :
    ∀ (L : List Connection) (st : UIState) (c : Connection), UINodups st → c ∈ L →
      c ∉ ((L.foldl (fun s c => removeConnStep s p c) st).portConns (c.otherPort p)) ∧
      c ∉ ((L.foldl (fun s c => removeConnStep s p c) st).sceneConns) := by
  intro L
  induction L with
  | nil => intro st c _ h; cases h
  | cons a rest ih =>
    intro st c hnd hmem
    rw [List.foldl_cons]
    by_cases hr : c ∈ rest
    · exact ih _ c (removeConnStep_nodups hnd) hr
    · have hca : c = a := by
        rcases List.mem_cons.1 hmem with h | h
        · exact h
        · exact absurd h hr
      subst hca
      have hdead_port : c ∉ (removeConnStep st p c).portConns (c.otherPort p) := by
        simp only [removeConnStep, updatePort, if_pos rfl]
        exact not_mem_remove_connection (hnd.1 _)
      have hdead_scene : c ∉ (removeConnStep st p c).sceneConns := by
        simp only [removeConnStep]
        intro h
        exact (hnd.2.mem_erase_iff.1 h).1 rfl
      constructor
      · intro h
        exact hdead_port (foldRemove_port_subset p rest _ _ c h)
      · intro h
        exact hdead_scene (foldRemove_scene_subset p rest _ c h)

theorem otherPort_eq {c : Connection} {r q : PortRef}
    (hr : r = c.start_port ∨ r = c.end_port) (hq : q = c.start_port ∨ q = c.end_port)
    (hne : q ≠ r) : c.otherPort r = q := by
  unfold Connection.otherPort
  rcases hr with rfl | rfl
  · rw [if_neg (by simp)]
    rcases hq with h | h
    · exact absurd h hne
    · exact h.symm
  · by_cases hse : c.start_port = c.end_port
    · rcases hq with h | h
      · exact absurd (h.trans hse) hne
      · exact absurd h hne
    · rw [if_pos hse]
      rcases hq with h | h
      · exact h.symm
      · exact absurd h hne

theorem mem_port_of_eq {st : UIState} {c : Connection} {r p : PortRef}
    (h : c ∈ st.portConns r) (he : r = p) : c ∈ st.portConns p := by
  rw [← he]
  exact h

theorem nid_port_cases {r : PortRef} {nid : Nat} (hn : r.node = nid) (hi : r.index = 0) :
    r = (⟨nid, false, 0⟩ : PortRef) ∨ r = (⟨nid, true, 0⟩ : PortRef) := by
  obtain ⟨a, b, i⟩ := r
  simp only at hn hi
  subst hn
  subst hi
  cases b
  · exact Or.inl rfl
  · exact Or.inr rfl

theorem deleteNodeEvent_conns (st : UIState) (nid : Nat) :
    (deleteNodeEvent st nid).portConns =
      (deletePortConns (deletePortConns st ⟨nid, false, 0⟩) ⟨nid, true, 0⟩).portConns ∧
    (deleteNodeEvent st nid).sceneConns =
      (deletePortConns (deletePortConns st ⟨nid, false, 0⟩) ⟨nid, true, 0⟩).sceneConns :=
  ⟨rfl, rfl⟩

/-- C9: deleting a node in a well-formed graph removes every connection
touching either of its ports both from the scene (the graph) and from the
connection collections of the surviving peer ports: afterwards no scene
connection and no collection of a port of a surviving node contains a
connection touching the deleted node. -/
theorem delete_node_no_dangling (st : UIState) (nid : Nat) (hwf : WFUI st) :
    (∀ c ∈ (deleteNodeEvent st nid).sceneConns, ¬ Touches c nid) ∧
    (∀ p : PortRef, p.node ≠ nid →
      ∀ c ∈ (deleteNodeEvent st nid).portConns p, ¬ Touches c nid) := by
  set pi : PortRef := ⟨nid, false, 0⟩ with hpi_def
  set po : PortRef := ⟨nid, true, 0⟩ with hpo_def
  set st1 := deletePortConns st pi with hst1
  set st2 := deletePortConns st1 po with hst2
  have hnd0 : UINodups st := ⟨hwf.conns_nodup, hwf.scene_nodup⟩
  have hnd1 : UINodups st1 := foldRemove_nodups pi (st.portConns pi) st hnd0
  have hport2 : (deleteNodeEvent st nid).portConns = st2.portConns :=
    (deleteNodeEvent_conns st nid).1
  have hscene2 : (deleteNodeEvent st nid).sceneConns = st2.sceneConns :=
    (deleteNodeEvent_conns st nid).2
  -- a connection registered at a port of the deleted node is erased from the
  -- scene and from its peer port's collection by the two cleanup folds
  have kills : ∀ c : Connection, c ∈ st.portConns pi ∨
      (c ∉ st.portConns pi ∧ c ∈ st.portConns po) →
      c ∉ st2.sceneConns ∧
        (c ∈ st.portConns pi → c ∉ st2.portConns (c.otherPort pi)) ∧
        (c ∉ st.portConns pi → c ∈ st.portConns po → c ∉ st2.portConns (c.otherPort po)) := by
    intro c hcase
    refine ⟨?_, ?_, ?_⟩
    · rcases hcase with hmem | ⟨hnm, hmem⟩
      · have h1 := (foldRemove_kills pi (st.portConns pi) st c hnd0 hmem).2
        intro h
        exact h1 (foldRemove_scene_subset po (st1.portConns po) st1 c h)
      · have hmem1 : c ∈ st1.portConns po :=
          foldRemove_port_preserves pi (st.portConns pi) st po c hnm hmem
        exact (foldRemove_kills po (st1.portConns po) st1 c hnd1 hmem1).2
    · intro hmem
      have h1 := (foldRemove_kills pi (st.portConns pi) st c hnd0 hmem).1
      intro h
      exact h1 (foldRemove_port_subset po (st1.portConns po) st1 _ c h)
    · intro hnm hmem
      have hmem1 : c ∈ st1.portConns po :=
        foldRemove_port_preserves pi (st.portConns pi) st po c hnm hmem
      exact (foldRemove_kills po (st1.portConns po) st1 c hnd1 hmem1).1
  constructor
  · intro c hc htouch
    rw [hscene2] at hc
    have hscene0 : c ∈ st.sceneConns :=
      foldRemove_scene_subset pi (st.portConns pi) st c
        (foldRemove_scene_subset po (st1.portConns po) st1 c hc)
    have hstart : c ∈ st.portConns c.start_port := hwf.scene_reg c hscene0
    have hend : c ∈ st.portConns c.end_port := hwf.reg_sym_end _ c hstart
    by_cases hmpi : c ∈ st.portConns pi
    · exact (kills c (Or.inl hmpi)).1 hc
    · -- the touching end port must be the output port of the deleted node
      have hrpo : c ∈ st.portConns po := by
        rcases htouch with hs | he
        · have hv := hwf.ports_valid _ c hstart
          rcases nid_port_cases hs hv.1 with h | h
          · exact absurd (mem_port_of_eq hstart h) hmpi
          · exact mem_port_of_eq hstart h
        · have hv := hwf.ports_valid _ c hend
          rcases nid_port_cases he hv.2 with h | h
          · exact absurd (mem_port_of_eq hend h) hmpi
          · exact mem_port_of_eq hend h
      exact (kills c (Or.inr ⟨hmpi, hrpo⟩)).1 hc
  · intro q hqn c hcq htouch
    rw [hport2] at hcq
    have hq0 : c ∈ st.portConns q :=
      foldRemove_port_subset pi (st.portConns pi) st q c
        (foldRemove_port_subset po (st1.portConns po) st1 q c hcq)
    have hqe := hwf.reg_end q c hq0
    have hstart : c ∈ st.portConns c.start_port := hwf.reg_sym_start q c hq0
    have hend : c ∈ st.portConns c.end_port := hwf.reg_sym_end q c hq0
    have hqpi : q ≠ pi := fun h => hqn (by rw [h])
    have hqpo : q ≠ po := fun h => hqn (by rw [h])
    by_cases hmpi : c ∈ st.portConns pi
    · have hpie := hwf.reg_end pi c hmpi
      have hother : c.otherPort pi = q := otherPort_eq hpie hqe hqpi
      have := (kills c (Or.inl hmpi)).2.1 hmpi
      rw [hother] at this
      exact this hcq
    · have hrpo : c ∈ st.portConns po := by
        rcases htouch with hs | he
        · have hv := hwf.ports_valid _ c hstart
          rcases nid_port_cases hs hv.1 with h | h
          · exact absurd (mem_port_of_eq hstart h) hmpi
          · exact mem_port_of_eq hstart h
        · have hv := hwf.ports_valid _ c hend
          rcases nid_port_cases he hv.2 with h | h
          · exact absurd (mem_port_of_eq hend h) hmpi
          · exact mem_port_of_eq hend h
      have hpoe := hwf.reg_end po c hrpo
      have hother : c.otherPort po = q := otherPort_eq hpoe hqe hqpo
      have := (kills c (Or.inr ⟨hmpi, hrpo⟩)).2.2 hmpi hrpo
      rw [hother] at this
      exact this hcq

theorem wf_st9 : WFUI st9 := by
  refine ⟨?_, ?_, ?_, ?_, ?_, ?_, ?_⟩
  · intro p c h
    simp only [st9] at h
    split at h
    · simp only [List.mem_singleton] at h
      subst h
      next hp =>
        rcases hp with rfl | rfl
        · exact Or.inl rfl
        · exact Or.inr rfl
    · cases h
  · intro p c h
    simp only [st9] at h ⊢
    split at h
    · simp only [List.mem_singleton] at h
      subst h
      simp [c9Conn]
    · cases h
  · intro p c h
    simp only [st9] at h ⊢
    split at h
    · simp only [List.mem_singleton] at h
      subst h
      simp [c9Conn]
    · cases h
  · intro p c h
    simp only [st9] at h
    split at h
    · simp only [List.mem_singleton] at h
      subst h
      exact ⟨rfl, rfl⟩
    · cases h
  · intro c h
    simp only [st9, List.mem_singleton] at h
    subst h
    decide
  · intro p
    simp only [st9]
    split
    · exact List.nodup_singleton c9Conn
    · exact List.nodup_nil
  · exact List.nodup_singleton c9Conn

theorem delete_node_no_dangling_witness :
    (∀ c ∈ (deleteNodeEvent st9 0).sceneConns, ¬ Touches c 0) ∧
    (deleteNodeEvent st9 0).sceneConns = [] ∧
    (deleteNodeEvent st9 0).portConns pIn1 = [] ∧
    (deleteNodeEvent st9 0).nodes = [1] :=
  ⟨(delete_node_no_dangling st9 0 wf_st9).1, rfl, rfl, rfl⟩

theorem execute_graph_failure_count_amended_witness :
    (nids cg4).Nodup ∧ cg4Node ∈ cg4 ∧ FailsAlways cg4Node.code ∧
    (execute_graph cg4).executed.length = cg4.length ∧
    (execute_graph cg4).results cg4Node.nid = none ∧
    pass_summary cg4 = (cg4.length, cg4.length) := by
  have hcl : Closed cg4 := fun u m h => absurd h (no_upstream_cg4 u m)
  have hac : Acyclic cg4 := acyclic_of_rank id (fun u m h => absurd h (no_upstream_cg4 u m))
  have hmem : cg4Node ∈ cg4 := List.mem_singleton_self cg4Node
  have hfails : FailsAlways cg4Node.code := fun _ => ⟨"boom", rfl⟩
  have hmain := execute_graph_failure_count_amended cg4 (by decide) hcl hac cg4Node hmem hfails
  exact ⟨by decide, hmem, hfails, hmain.1, hmain.2.2.1, hmain.2.2.2⟩

/- ----------------------------------------------------------------------
Serialization round-trip machinery for C7.
---------------------------------------------------------------------- -/

theorem getConns_sound {st : SGState} {p : PortRef} {c : Connection}
    (h : c ∈ getConns st p) : ∃ e ∈ st.portAssoc, e.1 = p ∧ c ∈ e.2 := by
  unfold getConns at h
  cases hf : st.portAssoc.find? (fun e => decide (e.1 = p)) with
  | none => rw [hf] at h; simp at h
  | some e =>
    rw [hf] at h
    simp only [Option.map_some', Option.getD_some] at h
    refine ⟨e, List.mem_of_find?_eq_some hf, ?_, h⟩
    have := List.find?_some hf
    simpa using this

theorem getConns_nodup {st : SGState} (hwf : SWF st) (p : PortRef) :
    (getConns st p).Nodup := by
  unfold getConns
  cases hf : st.portAssoc.find? (fun e => decide (e.1 = p)) with
  | none => simp
  | some e =>
    simp only [Option.map_some', Option.getD_some]
    exact hwf.2.2.1 e (List.mem_of_find?_eq_some hf)

theorem scene_of_getConns {st : SGState} (hwf : SWF st) {p : PortRef} {c : Connection}
    (h : c ∈ getConns st p) : c ∈ st.sceneConns := by
  obtain ⟨e, he, -, hc⟩ := getConns_sound h
  exact (hwf.2.2.2.1 e he c hc).2

theorem mem_serialize_conn_items {st : SGState} {c : Connection} :
    c ∈ serialize_conn_items st ↔
      ∃ n ∈ st.nodes, ∃ p ∈ portsOfRec n, c ∈ getConns st p ∧ c.start_port = p := by
  unfold serialize_conn_items
  rw [List.mem_flatten]
  constructor
  · rintro ⟨ln, hln, hcl⟩
    obtain ⟨n, hn, rfl⟩ := List.mem_map.1 hln
    obtain ⟨lp, hlp, hcp⟩ := List.mem_flatten.1 hcl
    obtain ⟨p, hp, rfl⟩ := List.mem_map.1 hlp
    have hm := List.mem_filter.1 hcp
    exact ⟨n, hn, p, hp, hm.1, by simpa using hm.2⟩
  · rintro ⟨n, hn, p, hp, hc, hs⟩
    refine ⟨_, List.mem_map_of_mem _ hn, ?_⟩
    refine List.mem_flatten.2 ⟨_, List.mem_map_of_mem _ hp, ?_⟩
    exact List.mem_filter.2 ⟨hc, by simpa using hs⟩

theorem mem_serialize_of_scene {st : SGState} (hwf : SWF st) {c : Connection}
    (h : c ∈ st.sceneConns) : c ∈ serialize_conn_items st := by
  obtain ⟨hi0, -, hnm, -, hreg⟩ := hwf.2.2.2.2 c h
  obtain ⟨n, hn, hnid⟩ := List.mem_map.1 hnm
  refine mem_serialize_conn_items.2 ⟨n, hn, c.start_port, ?_, hreg, rfl⟩
  rcases nid_port_cases (show c.start_port.node = n.nid from hnid.symm) hi0 with h1 | h1 <;>
    simp [portsOfRec, h1]

theorem scene_of_mem_serialize {st : SGState} (hwf : SWF st) {c : Connection}
    (h : c ∈ serialize_conn_items st) : c ∈ st.sceneConns := by
  obtain ⟨n, -, p, -, hc, -⟩ := mem_serialize_conn_items.1 h
  exact scene_of_getConns hwf hc

theorem start_node_of_mem_inner {st : SGState} {n : NodeRec} {c : Connection}
    (h : c ∈ ((portsOfRec n).map
      (fun p => (getConns st p).filter (fun c => decide (c.start_port = p)))).flatten) :
    c.start_port.node = n.nid := by
  obtain ⟨lp, hlp, hc⟩ := List.mem_flatten.1 h
  obtain ⟨p, hp, rfl⟩ := List.mem_map.1 hlp
  have h2 := (List.mem_filter.1 hc).2
  simp only [decide_eq_true_eq] at h2
  unfold portsOfRec at hp
  rcases List.mem_cons.1 hp with rfl | hp
  · rw [h2]
  · simp only [List.mem_singleton] at hp
    subst hp
    rw [h2]

theorem serialize_conn_items_nodup {st : SGState} (hwf : SWF st) :
    (serialize_conn_items st).Nodup := by
  unfold serialize_conn_items
  rw [List.nodup_flatten]
  constructor
  · intro ln hln
    obtain ⟨n, hn, rfl⟩ := List.mem_map.1 hln
    rw [List.nodup_flatten]
    constructor
    · intro lp hlp
      obtain ⟨p, hp, rfl⟩ := List.mem_map.1 hlp
      exact (getConns_nodup hwf p).filter _
    · rw [List.pairwise_map]
      unfold portsOfRec
      refine List.Pairwise.cons ?_ (List.Pairwise.cons (by simp) List.Pairwise.nil)
      intro p2 hp2
      simp only [List.mem_singleton, List.not_mem_nil, or_false] at hp2
      subst hp2
      intro c hc1 hc2
      have h1 := (List.mem_filter.1 hc1).2
      have h2 := (List.mem_filter.1 hc2).2
      simp only [decide_eq_true_eq] at h1 h2
      have hcontra : (⟨n.nid, false, 0⟩ : PortRef) = ⟨n.nid, true, 0⟩ := by
        rw [← h1, ← h2]
      simp at hcontra
  · rw [List.pairwise_map]
    have hpw : st.nodes.Pairwise (fun a b => a.nid ≠ b.nid) :=
      List.pairwise_map.1 hwf.1
    refine hpw.imp ?_
    intro a b hne c hc1 hc2
    exact hne ((start_node_of_mem_inner hc1).symm.trans (start_node_of_mem_inner hc2))

theorem serialize_conn_items_perm {st : SGState} (hwf : SWF st) :
    (serialize_conn_items st).Perm st.sceneConns :=
  (List.perm_ext_iff_of_nodup (serialize_conn_items_nodup hwf) hwf.2.1).2
    (fun c => ⟨scene_of_mem_serialize hwf, mem_serialize_of_scene hwf⟩)

theorem deserializedNodesFrom_length : ∀ (k : Nat) (ns : List SNodeRec),
    (deserializedNodesFrom k ns).length = ns.length := by
  intro k ns
  induction ns generalizing k with
  | nil => rfl
  | cons r rest ih => simp [deserializedNodesFrom, ih]

theorem deserializedNodesFrom_fields : ∀ (k : Nat) (ns : List SNodeRec),
    (deserializedNodesFrom k ns).map NodeRec.title = ns.map SNodeRec.title ∧
    (deserializedNodesFrom k ns).map NodeRec.code = ns.map SNodeRec.code ∧
    (deserializedNodesFrom k ns).map NodeRec.pos_x = ns.map SNodeRec.pos_x ∧
    (deserializedNodesFrom k ns).map NodeRec.pos_y = ns.map SNodeRec.pos_y ∧
    (deserializedNodesFrom k ns).map NodeRec.is_viewer = ns.map SNodeRec.is_viewer := by
  intro k ns
  induction ns generalizing k with
  | nil => exact ⟨rfl, rfl, rfl, rfl, rfl⟩
  | cons r rest ih =>
    obtain ⟨h1, h2, h3, h4, h5⟩ := ih (k + 1)
    refine ⟨?_, ?_, ?_, ?_, ?_⟩ <;>
      simp [deserializedNodesFrom, h1, h2, h3, h4, h5]

theorem nodeIndexFrom_deserialized : ∀ (ns : List SNodeRec) (k x : Nat),
    k ≤ x → x < k + ns.length →
    nodeIndexFrom (deserializedNodesFrom k ns) x k = some x := by
  intro ns
  induction ns with
  | nil =>
    intro k x h1 h2
    simp only [deserializedNodesFrom, List.length_nil] at h2
    omega
  | cons r rest ih =>
    intro k x h1 h2
    simp only [deserializedNodesFrom, nodeIndexFrom]
    by_cases hx : k = x
    · rw [if_pos hx, hx]
    · rw [if_neg hx]
      refine ih (k + 1) x (by omega) ?_
      simp only [List.length_cons] at h2
      omega

theorem nodeIndexFrom_none : ∀ (ns : List NodeRec) (x k : Nat),
    x ∉ ns.map NodeRec.nid → nodeIndexFrom ns x k = none := by
  intro ns
  induction ns with
  | nil => intro x k _; rfl
  | cons n rest ih =>
    intro x k h
    simp only [List.map_cons, List.mem_cons, not_or] at h
    simp only [nodeIndexFrom]
    rw [if_neg (fun he => h.1 he.symm)]
    exact ih x (k + 1) h.2

theorem nodeIndexFrom_of_mem : ∀ (ns : List NodeRec) (x k : Nat),
    x ∈ ns.map NodeRec.nid →
    ∃ i, nodeIndexFrom ns x k = some i ∧ k ≤ i ∧ i < k + ns.length := by
  intro ns
  induction ns with
  | nil => intro x k h; simp at h
  | cons n rest ih =>
    intro x k h
    by_cases hx : n.nid = x
    · refine ⟨k, ?_, le_refl k, by simp⟩
      simp [nodeIndexFrom, hx]
    · have hmem : x ∈ rest.map NodeRec.nid := by
        simp only [List.map_cons, List.mem_cons] at h
        rcases h with h | h
        · exact absurd h.symm hx
        · exact h
      obtain ⟨i, hi, hk, hlt⟩ := ih x (k + 1) hmem
      refine ⟨i, ?_, by omega, ?_⟩
      · simp [nodeIndexFrom, hx, hi]
      · simp only [List.length_cons]
        omega

theorem nodes_dict_find_eq : ∀ (ns : List NodeRec), (ns.map NodeRec.nid).Nodup →
    ∀ (x k : Nat), nodes_dict_find (ns.map node_to_dict) x k = nodeIndexFrom ns x k := by
  intro ns
  induction ns with
  | nil => intro _ x k; rfl
  | cons n rest ih =>
    intro hnd x k
    have hnd' : (rest.map NodeRec.nid).Nodup := (List.nodup_cons.1 hnd).2
    simp only [List.map_cons, nodes_dict_find, nodeIndexFrom]
    rw [ih hnd' x (k + 1)]
    by_cases hx : n.nid = x
    · have hnm : x ∉ rest.map NodeRec.nid := by
        rw [← hx]
        exact (List.nodup_cons.1 hnd).1
      rw [nodeIndexFrom_none rest x (k + 1) hnm]
      simp [node_to_dict, hx]
    · cases hni : nodeIndexFrom rest x (k + 1) with
      | some j => rw [if_neg hx]
      | none => simp [node_to_dict, hx]

theorem conn_from_dict_emitted {st : SGState} (hwf : SWF st) {c : Connection}
    (hc : c ∈ st.sceneConns) :
    ∃ i j, nodeIndexFrom st.nodes c.start_port.node 0 = some i ∧
      nodeIndexFrom st.nodes c.end_port.node 0 = some j ∧
      i < st.nodes.length ∧ j < st.nodes.length ∧
      conn_from_dict (st.nodes.map node_to_dict) (conn_to_dict c) =
        some (⟨i, c.start_port.is_output, c.start_port.index⟩,
          ⟨j, c.end_port.is_output, c.end_port.index⟩) := by
  obtain ⟨hi0, he0, hsm, hem, -⟩ := hwf.2.2.2.2 c hc
  obtain ⟨i, hi, hik, hilt⟩ := nodeIndexFrom_of_mem st.nodes _ 0 hsm
  obtain ⟨j, hj, hjk, hjlt⟩ := nodeIndexFrom_of_mem st.nodes _ 0 hem
  refine ⟨i, j, hi, hj, by omega, by omega, ?_⟩
  unfold conn_from_dict conn_to_dict
  simp only
  rw [nodes_dict_find_eq st.nodes hwf.1, nodes_dict_find_eq st.nodes hwf.1, hi, hj]
  simp [hi0, he0]

theorem deserializeConnsFrom_nodes (ns : List SNodeRec) :
    ∀ (recs : List SConnRec) (k : Nat) (st : SGState),
      (deserializeConnsFrom ns k recs st).nodes = st.nodes := by
  intro recs
  induction recs with
  | nil => intro k st; rfl
  | cons r rest ih =>
    intro k st
    cases hpr : conn_from_dict ns r with
    | some pr =>
      simp only [deserializeConnsFrom, hpr]
      rw [ih]
    | none =>
      simp only [deserializeConnsFrom, hpr]
      rw [ih]

theorem deserializeConnsFrom_scene_map {T : Type} (ns : List SNodeRec)
    (f : Connection → T) (g : SConnRec → T) :
    ∀ (recs : List SConnRec) (k : Nat) (st : SGState),
      (∀ r ∈ recs, ∃ pr, conn_from_dict ns r = some pr ∧
        ∀ j : Nat, f ⟨j, pr.1, pr.2⟩ = g r) →
      (deserializeConnsFrom ns k recs st).sceneConns.map f =
        st.sceneConns.map f ++ recs.map g := by
  intro recs
  induction recs with
  | nil => intro k st _; simp [deserializeConnsFrom]
  | cons r rest ih =>
    intro k st hres
    obtain ⟨pr, hpr, hf⟩ := hres r (List.mem_cons_self r rest)
    simp only [deserializeConnsFrom, hpr]
    rw [ih (k + 1) _ (fun r2 h2 => hres r2 (List.mem_cons_of_mem r h2))]
    simp [hf k]

/-- C7: serializing a well-formed graph of N nodes and M (fully-connected)
connections and deserializing the result yields a graph of N nodes with
identical titles, code strings, positions (and node kinds, in order) and M
connections whose identity-independent topology — node position in the node
list, port direction and port index at each end — agrees with the original
up to reordering; node identities are fresh and may differ. -/
theorem serialize_deserialize_round_trip (st : SGState) (hwf : SWF st) :
    (deserialize_graph (serialize_graph st)).nodes.length = st.nodes.length ∧
    (deserialize_graph (serialize_graph st)).nodes.map NodeRec.title =
      st.nodes.map NodeRec.title ∧
    (deserialize_graph (serialize_graph st)).nodes.map NodeRec.code =
      st.nodes.map NodeRec.code ∧
    (deserialize_graph (serialize_graph st)).nodes.map NodeRec.pos_x =
      st.nodes.map NodeRec.pos_x ∧
    (deserialize_graph (serialize_graph st)).nodes.map NodeRec.pos_y =
      st.nodes.map NodeRec.pos_y ∧
    (deserialize_graph (serialize_graph st)).nodes.map NodeRec.is_viewer =
      st.nodes.map NodeRec.is_viewer ∧
    (deserialize_graph (serialize_graph st)).sceneConns.length = st.sceneConns.length ∧
    ((deserialize_graph (serialize_graph st)).sceneConns.map
        (topoOf (deserialize_graph (serialize_graph st)))).Perm
      (st.sceneConns.map (topoOf st)) := by
  have hnodes : (deserialize_graph (serialize_graph st)).nodes =
      deserializedNodesFrom 0 (st.nodes.map node_to_dict) := by
    simp only [deserialize_graph, serialize_graph]
    rw [deserializeConnsFrom_nodes]
  have hfields := deserializedNodesFrom_fields 0 (st.nodes.map node_to_dict)
  have hperm := serialize_conn_items_perm hwf
  -- the per-record topology of a recreated connection
  have hres : ∀ r ∈ (serialize_conn_items st).map conn_to_dict,
      ∃ pr, conn_from_dict (st.nodes.map node_to_dict) r = some pr ∧
        ∀ j : Nat, topoOf (deserialize_graph (serialize_graph st)) ⟨j, pr.1, pr.2⟩ =
          ((nodes_dict_find (st.nodes.map node_to_dict) r.start_node_id 0,
              r.start_port_is_output, r.start_port_index),
            (nodes_dict_find (st.nodes.map node_to_dict) r.end_node_id 0,
              r.end_port_is_output, r.end_port_index)) := by
    intro r hr
    obtain ⟨c, hcmem, rfl⟩ := List.mem_map.1 hr
    have hcs : c ∈ st.sceneConns := scene_of_mem_serialize hwf hcmem
    obtain ⟨i, j, hi, hj, hilt, hjlt, hcfd⟩ := conn_from_dict_emitted hwf hcs
    refine ⟨_, hcfd, ?_⟩
    intro jj
    have hlen : (st.nodes.map node_to_dict).length = st.nodes.length := by simp
    have hii : nodeIndexFrom (deserialize_graph (serialize_graph st)).nodes i 0 = some i := by
      rw [hnodes]
      exact nodeIndexFrom_deserialized _ 0 i (Nat.zero_le i) (by omega)
    have hjj : nodeIndexFrom (deserialize_graph (serialize_graph st)).nodes j 0 = some j := by
      rw [hnodes]
      exact nodeIndexFrom_deserialized _ 0 j (Nat.zero_le j) (by omega)
    show ((nodeIndexFrom (deserialize_graph (serialize_graph st)).nodes i 0,
        c.start_port.is_output, c.start_port.index),
      (nodeIndexFrom (deserialize_graph (serialize_graph st)).nodes j 0,
        c.end_port.is_output, c.end_port.index)) = _
    rw [hii, hjj]
    show _ = ((nodes_dict_find (st.nodes.map node_to_dict) c.start_port.node 0,
        c.start_port.is_output, c.start_port.index),
      (nodes_dict_find (st.nodes.map node_to_dict) c.end_port.node 0,
        c.end_port.is_output, c.end_port.index))
    rw [nodes_dict_find_eq st.nodes hwf.1, nodes_dict_find_eq st.nodes hwf.1, hi, hj]
  have hmap : (deserialize_graph (serialize_graph st)).sceneConns.map
      (topoOf (deserialize_graph (serialize_graph st))) =
      ((serialize_conn_items st).map conn_to_dict).map
        (fun r => ((nodes_dict_find (st.nodes.map node_to_dict) r.start_node_id 0,
            r.start_port_is_output, r.start_port_index),
          (nodes_dict_find (st.nodes.map node_to_dict) r.end_node_id 0,
            r.end_port_is_output, r.end_port_index))) := by
    conv_lhs =>
      rw [show (deserialize_graph (serialize_graph st)).sceneConns =
        (deserializeConnsFrom (st.nodes.map node_to_dict) 0
          ((serialize_conn_items st).map conn_to_dict)
          { nodes := deserializedNodesFrom 0 (st.nodes.map node_to_dict),
            sceneConns := [],
            portAssoc := (((deserializedNodesFrom 0
              (st.nodes.map node_to_dict)).map portsOfRec).flatten).map
                (fun p => (p, [])) }).sceneConns from rfl]
    rw [deserializeConnsFrom_scene_map _ _ _ _ 0 _ hres]
    simp
  have htopo : ((serialize_conn_items st).map conn_to_dict).map
      (fun r => ((nodes_dict_find (st.nodes.map node_to_dict) r.start_node_id 0,
          r.start_port_is_output, r.start_port_index),
        (nodes_dict_find (st.nodes.map node_to_dict) r.end_node_id 0,
          r.end_port_is_output, r.end_port_index))) =
      (serialize_conn_items st).map (topoOf st) := by
    rw [List.map_map]
    refine List.map_congr_left ?_
    intro c hcmem
    have hcs : c ∈ st.sceneConns := scene_of_mem_serialize hwf hcmem
    obtain ⟨i, j, hi, hj, -, -, -⟩ := conn_from_dict_emitted hwf hcs
    show ((nodes_dict_find (st.nodes.map node_to_dict) c.start_port.node 0,
        c.start_port.is_output, c.start_port.index),
      (nodes_dict_find (st.nodes.map node_to_dict) c.end_port.node 0,
        c.end_port.is_output, c.end_port.index)) = topoOf st c
    rw [nodes_dict_find_eq st.nodes hwf.1, nodes_dict_find_eq st.nodes hwf.1]
    rfl
  refine ⟨?_, ?_, ?_, ?_, ?_, ?_, ?_, ?_⟩
  · rw [hnodes, deserializedNodesFrom_length]
    simp
  · rw [hnodes, hfields.1, List.map_map]
    rfl
  · rw [hnodes, hfields.2.1, List.map_map]
    rfl
  · rw [hnodes, hfields.2.2.1, List.map_map]
    rfl
  · rw [hnodes, hfields.2.2.2.1, List.map_map]
    rfl
  · rw [hnodes, hfields.2.2.2.2, List.map_map]
    rfl
  · have hlen1 := congrArg List.length hmap
    simp only [List.length_map] at hlen1
    have hlen2 := hperm.length_eq
    omega
  · rw [hmap, htopo]
    exact hperm.map (topoOf st)

theorem serialize_deserialize_round_trip_witness :
    SWF st7 ∧
    (deserialize_graph (serialize_graph st7)).nodes.map NodeRec.title =
      st7.nodes.map NodeRec.title ∧
    (deserialize_graph (serialize_graph st7)).sceneConns.length = 1 ∧
    ((deserialize_graph (serialize_graph st7)).sceneConns.map
        (topoOf (deserialize_graph (serialize_graph st7)))).Perm
      (st7.sceneConns.map (topoOf st7)) :=
  ⟨by unfold SWF; decide, (serialize_deserialize_round_trip st7 (by unfold SWF; decide)).2.1, rfl,
    (serialize_deserialize_round_trip st7 (by unfold SWF; decide)).2.2.2.2.2.2.2⟩

end NodeEditor
